import Mathlib

/-!
Verification of the Solidity code-generation core (`libsolidity/Compiler.cpp`)
against its natural-language specification.

The development shallowly embeds the relevant parts of `Compiler.cpp`:
pure bookkeeping (offsets, stack heights, layout vectors, event traces)
becomes Lean functions over `Nat`/`Int`/lists; emitted assembly becomes
lists of abstract items; the external collaborators (ExpressionCompiler,
CompilerUtils, the assembler) are modelled by their documented contracts.
-/

namespace SolC

/-- `CompilerUtils::dataStartOffset`: calldata begins with a 4-byte selector. -/
def dataStartOffset : Nat := 4

/-- Modelled from the spec: `CompilerUtils::getPaddedSize` (CompilerUtils is not
part of the sources), rounding a byte length up to a multiple of 32 using
`(length + (32 - 1)) / 32 * 32`.  The emitted EVM code in
`appendCalldataUnpacker` computes the same value as `32 * ((31 + length) / 32)`. -/
def getPaddedSize (n : Nat) : Nat := (n + 31) / 32 * 32

/-! ## Calldata unpacker (`Compiler::appendCalldataUnpacker`) -/

/-- A parameter type, as far as the unpacker distinguishes them: statically
sized with a given calldata-encoded byte size, or dynamically sized. -/
inductive PTy where
  | static (encSize : Nat)
  | dyn
  deriving DecidableEq, Repr

/-- Number of dynamically-sized parameters (`dynamicParameterCount`). -/
def dynCount (ps : List PTy) : Nat := ps.countP (fun t => t matches PTy.dyn)

/-- The offset/cursor walk of `appendCalldataUnpacker`.  `off` is the
compile-time offset, `cur` the runtime cursor (present once the first
dynamically-sized parameter has been reached), `lens` the runtime lengths
read from the head slots of the dynamic parameters, in order.  Returns the
list of `(old cursor, length, new cursor)` triples, one per dynamic
parameter, together with the final cursor value (the value popped at the
end, when at least one dynamic parameter exists).

Static parameters reached before the first dynamic one advance the
compile-time offset by the padded size (`loadFromMemory` with
`c_padToWords`); static parameters reached afterwards are loaded through
the cursor.  Modelled from the spec: `CompilerUtils::loadFromMemory`
returns the number of bytes read (the padded encoded size) and
`CompilerUtils::loadFromMemoryDynamic` advances the cursor on the stack by
the same amount; CompilerUtils is not part of the sources. -/
def unpackGo : List PTy → List Nat → Nat → Option Nat →
    List (Nat × Nat × Nat) × Option Nat
  | [], _, _, cur => ([], cur)
  | .dyn :: rest, lens, off, cur =>
      let c0 := cur.getD off
      let len := lens.headD 0
      let c1 := c0 + getPaddedSize len
      let r := unpackGo rest lens.tail off (some c1)
      ((c0, len, c1) :: r.1, r.2)
  | .static n :: rest, lens, off, cur =>
      match cur with
      | none => unpackGo rest lens (off + getPaddedSize n) none
      | some c => unpackGo rest lens off (some (c + getPaddedSize n))

/-- The unpacker walk: the initial compile-time offset skips the selector
(`dataStartOffset`) and the 32-byte length head of every dynamic parameter
(`offset += dynamicParameterCount * 32`). -/
def appendCalldataUnpacker (ps : List PTy) (lens : List Nat) :
    List (Nat × Nat × Nat) × Option Nat :=
  unpackGo ps lens (dataStartOffset + dynCount ps * 32) none

/-- Total byte length of the ABI-encoded arguments, per the wire format of
the spec: a 32-byte length head per dynamic parameter, a padded slot per
static parameter, and the padded tail data of each dynamic parameter. -/
def totalEncodedSize : List PTy → List Nat → Nat
  | [], _ => 0
  | .dyn :: rest, lens => 32 + getPaddedSize (lens.headD 0) + totalEncodedSize rest lens.tail
  | .static n :: rest, lens => getPaddedSize n + totalEncodedSize rest lens

/-- Bytes consumed through the runtime cursor from the first dynamic
parameter on: padded tails of dynamic parameters and padded slots of
the remaining static parameters. -/
def tailSize : List PTy → List Nat → Nat
  | [], _ => 0
  | .dyn :: rest, lens => getPaddedSize (lens.headD 0) + tailSize rest lens.tail
  | .static n :: rest, lens => getPaddedSize n + tailSize rest lens

lemma unpackGo_dynMode (ps : List PTy) (lens : List Nat) (off c : Nat) :
    (unpackGo ps lens off (some c)).2 = some (c + tailSize ps lens) := by
  induction ps generalizing lens c with
  | nil => simp [unpackGo, tailSize]
  | cons t rest ih =>
      cases t with
      | dyn =>
          simp only [unpackGo, tailSize, Option.getD_some]
          rw [ih]
          ring_nf
      | static n =>
          simp only [unpackGo, tailSize]
          rw [ih]
          ring_nf

lemma unpackGo_staticMode (ps : List PTy) (lens : List Nat) (off : Nat) :
    (unpackGo ps lens off none).2 =
      if dynCount ps = 0 then none
      else some (off + tailSize ps lens) := by
  induction ps generalizing lens off with
  | nil => simp [unpackGo, dynCount]
  | cons t rest ih =>
      cases t with
      | dyn =>
          simp only [unpackGo, Option.getD_none, dynCount, List.countP_cons]
          rw [unpackGo_dynMode]
          simp only [tailSize]
          simp
          omega
      | static n =>
          simp only [unpackGo, dynCount, List.countP_cons]
          rw [ih]
          simp only [dynCount, tailSize]
          by_cases h : rest.countP (fun t => t matches PTy.dyn) = 0
          · simp [h]
          · simp [h]
            omega

lemma totalEncodedSize_eq (ps : List PTy) (lens : List Nat) :
    totalEncodedSize ps lens = dynCount ps * 32 + tailSize ps lens := by
  induction ps generalizing lens with
  | nil => simp [totalEncodedSize, tailSize, dynCount]
  | cons t rest ih =>
      cases t with
      | dyn =>
          simp only [totalEncodedSize, tailSize, dynCount, List.countP_cons]
          rw [ih]
          simp only [dynCount]
          simp
          omega
      | static n =>
          simp only [totalEncodedSize, tailSize, dynCount, List.countP_cons]
          rw [ih]
          simp only [dynCount]
          simp
          omega

lemma unpackGo_steps (ps : List PTy) (lens : List Nat) (off : Nat) (cur : Option Nat) :
    ∀ step ∈ (unpackGo ps lens off cur).1,
      step.2.2 = step.1 + getPaddedSize step.2.1 := by
  induction ps generalizing lens off cur with
  | nil => simp [unpackGo]
  | cons t rest ih =>
      cases t with
      | dyn =>
          intro step hstep
          simp only [unpackGo, List.mem_cons] at hstep
          rcases hstep with h | h
          · subst h; rfl
          · exact ih _ _ _ step h
      | static n =>
          intro step hstep
          simp only [unpackGo] at hstep
          cases cur with
          | none => exact ih _ _ _ step hstep
          | some c => exact ih _ _ _ step hstep

/-- C4 (amended): in the code emitted by the calldata unpacker, for every
dynamically-sized parameter the runtime cursor advances by
`ceil(len/32)*32` bytes (the 32-byte length head slots of all dynamic
parameters are skipped once, at compile time, before the walk), and after
the last parameter the final cursor value equals `dataStartOffset` (4,
the selector) plus the total byte length of the encoded arguments. -/
theorem calldataUnpacker_cursor (ps : List PTy) (lens : List Nat) :
    (∀ step ∈ (appendCalldataUnpacker ps lens).1,
        step.2.2 = step.1 + getPaddedSize step.2.1) ∧
    (appendCalldataUnpacker ps lens).2 =
      (if dynCount ps = 0 then none
       else some (dataStartOffset + totalEncodedSize ps lens)) := by
  refine ⟨unpackGo_steps ps lens _ none, ?_⟩
  unfold appendCalldataUnpacker
  rw [unpackGo_staticMode, totalEncodedSize_eq]
  by_cases h : dynCount ps = 0
  · simp [h]
  · simp [h]
    omega

/-- C4 counterexample: for parameter list `(bytes)` with runtime length 0,
the cursor does not advance by `32 + ceil(len/32)*32` (it advances by 0,
the padded tail size alone), and the final cursor value (36) differs from
the total encoded argument byte length (32). -/
theorem calldataUnpacker_claim_false :
    ¬ (∀ step ∈ (appendCalldataUnpacker [PTy.dyn] [0]).1,
        step.2.2 = step.1 + (32 + getPaddedSize step.2.1)) ∧
    (appendCalldataUnpacker [PTy.dyn] [0]).2 ≠
      some (totalEncodedSize [PTy.dyn] [0]) := by
  constructor
  · intro h
    have := h (36, 0, 36) (by decide)
    simp [getPaddedSize] at this
  · decide

/-! ## Return-value packer (`Compiler::appendReturnValuePacker`) -/

/-- A return type, as far as the packer distinguishes them: its size on the
operand stack and the number of bytes `CompilerUtils::storeInMemory` writes
for it with `c_padToWords` (its ABI-padded size). -/
structure RTy where
  sizeOnStack : Nat
  paddedSize : Nat
  deriving DecidableEq, Repr

/-- The alphabet of emissions of `appendReturnValuePacker`:
`copyToStackTop`, the identity type conversion, `storeInMemory` at a given
offset writing a given number of bytes, push constants and the final
RETURN.  `pop` is included in the alphabet so that the absence of
stack-popping instructions is expressible; the source function never
emits it. -/
inductive PackEv where
  | copyToTop (depth : Nat)
  | convert
  | store (offset : Nat) (size : Nat)
  | pushConst (v : Nat)
  | pop
  | ret
  deriving DecidableEq, Repr

/-- Recognizes a `storeInMemory` emission. -/
def isStore : PackEv → Bool
  | .store _ _ => true
  | _ => false

@[simp] lemma isStore_copyToTop (d : Nat) : isStore (.copyToTop d) = false := rfl

@[simp] lemma isStore_convert : isStore .convert = false := rfl

@[simp] lemma isStore_store (o s : Nat) : isStore (.store o s) = true := rfl

@[simp] lemma isStore_pushConst (v : Nat) : isStore (.pushConst v) = false := rfl

@[simp] lemma isStore_ret : isStore .ret = false := rfl

/-- The per-type loop of `appendReturnValuePacker`: `off` is `dataOffset`,
`depth` is `stackDepth`; returns the emissions and the final `dataOffset`. -/
def packGo : List RTy → Nat → Nat → List PackEv × Nat
  | [], off, _ => ([], off)
  | t :: rest, off, depth =>
      ((.copyToTop depth : PackEv) :: .convert :: .store off t.paddedSize ::
          (packGo rest (off + t.paddedSize) (depth - t.sizeOnStack)).1,
        (packGo rest (off + t.paddedSize) (depth - t.sizeOnStack)).2)

/-- `Compiler::appendReturnValuePacker`: copy every return value to scratch
memory at consecutive padded offsets from 0, then
`PUSH dataOffset; PUSH 0; RETURN`. -/
def appendReturnValuePacker (ts : List RTy) : List PackEv :=
  (packGo ts 0 ((ts.map RTy.sizeOnStack).sum)).1 ++
    [.pushConst (packGo ts 0 ((ts.map RTy.sizeOnStack).sum)).2, .pushConst 0, .ret]

lemma packGo_snd (ts : List RTy) (off depth : Nat) :
    (packGo ts off depth).2 = off + (ts.map RTy.paddedSize).sum := by
  induction ts generalizing off depth with
  | nil => simp [packGo]
  | cons t rest ih =>
      simp only [packGo, List.map_cons, List.sum_cons]
      rw [ih]
      omega

lemma packGo_stores (ts : List RTy) (off depth : Nat) :
    (packGo ts off depth).1.filter isStore =
      (List.range ts.length).map (fun i =>
        PackEv.store (off + ((ts.take i).map RTy.paddedSize).sum)
          ((ts.getD i ⟨0, 0⟩).paddedSize)) := by
  induction ts generalizing off depth with
  | nil => simp [packGo]
  | cons t rest ih =>
      simp only [packGo, List.filter_cons, isStore_copyToTop, isStore_convert, isStore_store,
        Bool.false_eq_true, if_false, if_true, List.length_cons, List.range_succ_eq_map,
        List.map_cons, List.map_map]
      rw [ih]
      simp only [List.take_zero, List.map_nil, List.sum_nil, Nat.add_zero, List.getD_cons_zero]
      refine List.cons_eq_cons.mpr ⟨rfl, ?_⟩
      apply List.map_congr_left
      intro i _
      simp only [Function.comp_apply, List.take_succ_cons, List.map_cons, List.sum_cons,
        List.getD_cons_succ]
      congr 1
      omega

lemma packGo_no_pop (ts : List RTy) (off depth : Nat) :
    PackEv.pop ∉ (packGo ts off depth).1 := by
  induction ts generalizing off depth with
  | nil => simp [packGo]
  | cons t rest ih =>
      simp only [packGo, List.mem_cons]
      intro h
      rcases h with h | h | h | h
      · exact PackEv.noConfusion h
      · exact PackEv.noConfusion h
      · exact PackEv.noConfusion h
      · exact ih _ _ h

/-- C8: the return-value packer stores each return value at consecutive
ABI-padded offsets starting at offset 0, ends with a RETURN whose memory
offset operand is 0 and whose size operand is the sum of the padded sizes
of all return types, and emits no stack-popping instruction before the
RETURN. -/
theorem returnValuePacker_spec (ts : List RTy) :
    ((appendReturnValuePacker ts).filter isStore =
      (List.range ts.length).map (fun i =>
        PackEv.store (((ts.take i).map RTy.paddedSize).sum)
          ((ts.getD i ⟨0, 0⟩).paddedSize))) ∧
    (appendReturnValuePacker ts =
      (packGo ts 0 ((ts.map RTy.sizeOnStack).sum)).1 ++
        [.pushConst ((ts.map RTy.paddedSize).sum), .pushConst 0, .ret]) ∧
    PackEv.pop ∉ appendReturnValuePacker ts := by
  unfold appendReturnValuePacker
  refine ⟨?_, ?_, ?_⟩
  · rw [List.filter_append, packGo_stores]
    simp
  · rw [packGo_snd]
    simp
  · rw [List.mem_append]
    rintro (h | h)
    · exact packGo_no_pop _ _ _ h
    · simp at h

/-! ## Base-constructor argument binding (`Compiler::packIntoContractCreator`,
building `baseArguments`) -/

/-- One step of filling the `baseArguments` map: record the argument list
of an inheritance specifier only if no entry for that base exists yet
(`if (baseArguments.count(baseContract) == 0)`).  Bases are identified by
a `Nat`, argument lists by a `Nat` id. -/
def addSpec (m : List (Nat × Nat)) (p : Nat × Nat) : List (Nat × Nat) :=
  if (m.lookup p.1).isSome then m else m ++ [p]

/-- Build the base → argument-list map: traverse the linearized base list
(most-derived first); for each contract traverse its inheritance
specifiers in order.  `specs` is the list, per linearized contract, of
that contract's `(referenced base, argument list)` specifiers. -/
def buildBaseArgs (specs : List (List (Nat × Nat))) : List (Nat × Nat) :=
  specs.foldl (fun m l => l.foldl addSpec m) []

lemma lookup_append_singleton (m : List (Nat × Nat)) (p : Nat × Nat) (b : Nat) :
    (m ++ [p]).lookup b =
      ((m.lookup b).orElse (fun _ => if p.1 = b then some p.2 else none)) := by
  induction m with
  | nil =>
      by_cases h : p.1 = b
      · subst h
        simp [List.lookup]
      · have hbe : (b == p.1) = false := by
          simp only [beq_eq_false_iff_ne, ne_eq]
          intro h'
          exact h h'.symm
        simp [List.lookup, hbe, h]
  | cons q t ih =>
      by_cases h : q.1 = b
      · subst h
        simp [List.lookup]
      · simp only [List.cons_append, List.lookup]
        have hbe : (b == q.1) = false := by
          simp [beq_iff_eq]
          intro h'
          exact h h'.symm
        rw [hbe]
        simpa using ih

lemma foldl_addSpec_lookup (l : List (Nat × Nat)) (m : List (Nat × Nat)) (b : Nat) :
    ((l.foldl addSpec m).lookup b) =
      (m.lookup b).orElse (fun _ => (l.find? (fun p => p.1 == b)).map Prod.snd) := by
  induction l generalizing m with
  | nil => cases h : m.lookup b <;> simp [h, Option.orElse]
  | cons p t ih =>
      simp only [List.foldl_cons]
      rw [ih]
      by_cases hm : (m.lookup b).isSome
      · obtain ⟨v, hv⟩ := Option.isSome_iff_exists.mp hm
        have : (addSpec m p).lookup b = some v := by
          unfold addSpec
          split
          · exact hv
          · rw [lookup_append_singleton, hv]
            rfl
        simp [this, hv, Option.orElse]
      · have hmn : m.lookup b = none := Option.not_isSome_iff_eq_none.mp hm
        by_cases hp : p.1 = b
        · subst hp
          have : (addSpec m p).lookup p.1 = some p.2 := by
            unfold addSpec
            split
            · rename_i hs
              rw [hmn] at hs
              simp at hs
            · rw [lookup_append_singleton, hmn]
              simp [Option.orElse]
          simp [this, hmn, List.find?, Option.orElse]
        · have : (addSpec m p).lookup b = none := by
            unfold addSpec
            split
            · exact hmn
            · rw [lookup_append_singleton, hmn]
              simp [Option.orElse, hp]
          rw [this, hmn]
          have hbp : (p.1 == b) = false := by simp [hp]
          simp [List.find?, hbp, Option.orElse]

/-- C7: after building the `baseArguments` map, the arguments recorded for
a base `b` are exactly those of the first inheritance specifier naming `b`
encountered when traversing the linearized base list most-derived first
(within each contract, specifiers in order); later specifiers for the same
base are ignored. -/
theorem baseArguments_first_wins (specs : List (List (Nat × Nat))) (b : Nat) :
    (buildBaseArgs specs).lookup b =
      (specs.flatten.find? (fun p => p.1 == b)).map Prod.snd := by
  unfold buildBaseArgs
  rw [← List.foldl_flatten]
  rw [foldl_addSpec_lookup]
  simp [Option.orElse]

/-! ## Constructor sequencing (`Compiler::packIntoContractCreator`,
the base-to-derived loop) -/

/-- A contract as the creation-code loop sees it: an identifier and whether
it defines a constructor. -/
structure CDef where
  id : Nat
  hasCtor : Bool
  deriving DecidableEq, Repr

/-- Events emitted into the creation code for one contract:
`initializeStateVariables` and (for C2's purposes opaque) the constructor
call of `appendBaseConstructorCall` / `appendConstructorCall`. -/
inductive CrEv where
  | initSV (c : Nat)
  | callCtor (c : Nat)
  deriving DecidableEq, Repr

/-- The emission for one contract in the loop body: initialize its state
variables, then, unless it has no constructor (`continue`), call it. -/
def ctorEventsFor (b : CDef) : List CrEv :=
  .initSV b.id :: (if b.hasCtor then [.callCtor b.id] else [])

/-- The loop `for (i = 1; i < bases.size(); i++) { base = bases[bases.size()-i]; ... }`
re-indexed by `k = bases.size() - i`, which runs from `bases.size() - 1`
down to `1`. -/
def packLoopGo (bases : List CDef) : Nat → List CrEv
  | 0 => []
  | k + 1 =>
      (match bases.get? (k + 1) with
       | some b => ctorEventsFor b
       | none => []) ++ packLoopGo bases k

/-- The creation-code event sequence of `packIntoContractCreator` for a
contract `c` with linearized base list `c :: rest` (most-derived first):
the loop over indices `N-1 .. 1`, then the most-derived contract's state
initialization and constructor call. -/
def packIntoContractCreator (c : CDef) (rest : List CDef) : List CrEv :=
  packLoopGo (c :: rest) ((c :: rest).length - 1) ++ ctorEventsFor c

lemma packLoopGo_congr (l₁ l₂ : List CDef) (k : Nat)
    (h : ∀ j, j ≤ k → l₁.get? j = l₂.get? j) :
    packLoopGo l₁ k = packLoopGo l₂ k := by
  induction k with
  | zero => rfl
  | succ k ih =>
      simp only [packLoopGo]
      rw [h (k + 1) le_rfl, ih (fun j hj => h j (Nat.le_succ_of_le hj))]

lemma packLoopGo_spec (x : CDef) (t : List CDef) :
    packLoopGo (x :: t) t.length = t.reverse.flatMap ctorEventsFor := by
  induction t using List.reverseRecOn with
  | nil => rfl
  | append_singleton l b ih =>
      have hlen : (l ++ [b]).length = l.length + 1 := by simp
      rw [hlen]
      simp only [packLoopGo]
      have hget : (x :: (l ++ [b])).get? (l.length + 1) = some b := by
        have : (x :: (l ++ [b])) = (x :: l) ++ [b] := by simp
        rw [this]
        have hl : ((x :: l) ++ [b]).get? ((x :: l).length) = some b := by
          rw [List.get?_append_right le_rfl]
          simp
        simpa using hl
      rw [hget]
      have hcongr : packLoopGo (x :: (l ++ [b])) l.length = packLoopGo (x :: l) l.length := by
        apply packLoopGo_congr
        intro j hj
        cases j with
        | zero => rfl
        | succ j =>
            have hj' : j < l.length := Nat.lt_of_succ_le hj
            simp only [List.get?_cons_succ]
            rw [List.get?_append hj']
      rw [hcongr, ih]
      simp

/-- C2: for a contract `c` with linearized base list `c :: rest`
(most-derived first, length `N`), the creation code initializes state
variables and calls constructors base-to-derived (loop indices `N-1` down
to `1`, i.e. `rest` in reverse order), then handles the most-derived
contract last; a contract without a constructor contributes only its
state-variable initialization. -/
theorem packIntoContractCreator_order (c : CDef) (rest : List CDef) :
    packIntoContractCreator c rest =
      rest.reverse.flatMap ctorEventsFor ++ ctorEventsFor c := by
  unfold packIntoContractCreator
  have : (c :: rest).length - 1 = rest.length := by simp
  rw [this, packLoopGo_spec]

/-! ## Function selector (`Compiler::appendFunctionSelector`) -/

/-- Tags allocated by `appendFunctionSelector`: the calldata-unpacker entry
tag of the external function with a given selector, its return tag, and
the fallback's return tag. -/
inductive TagId where
  | entry (sel : Nat)
  | fret (sel : Nat)
  | fallbackRet
  deriving DecidableEq, Repr

/-- Assembly items of the selector prologue.  External emissions are
opaque markers: `unpack fid` marks the start of function `fid`'s calldata
unpacker, `fallbackBody` the start of the fallback function's code,
`packRet fid` its return-value packer. -/
inductive Item where
  | push (v : Nat)
  | pushTag (t : TagId)
  | dup1
  | eq
  | condJumpTo (t : TagId)
  | tagDef (t : TagId)
  | jumpToFn (fid : Nat)
  | stop
  | unpack (fid : Nat)
  | fallbackBody
  | packRet (fid : Nat)
  deriving DecidableEq, Repr

/-- The comparison sequence: for each interface function `(selector, fid)`,
`DUP1; PUSH selector; EQ; JUMPI unpacker-entry`. -/
def cmpBlock (fns : List (Nat × Nat)) : List Item :=
  fns.flatMap fun sf => [.dup1, .push sf.1, .eq, .condJumpTo (.entry sf.1)]

/-- After the comparisons: fallback (push return tag, fallback body, return
tag) when the contract defines one, otherwise STOP. -/
def fbPart (hasFallback : Bool) : List Item :=
  if hasFallback then [.pushTag .fallbackRet, .fallbackBody, .tagDef .fallbackRet]
  else [.stop]

/-- The per-function unpacker sections: entry tag, push return tag,
calldata unpacker, jump to the function, return tag, return-value packer. -/
def unpackSections (fns : List (Nat × Nat)) : List Item :=
  fns.flatMap fun sf =>
    [.tagDef (.entry sf.1), .pushTag (.fret sf.1), .unpack sf.2,
     .jumpToFn sf.2, .tagDef (.fret sf.1), .packRet sf.2]

/-- `Compiler::appendFunctionSelector`, after the initial 4-byte calldata
load (the load leaves the selector word on the stack; runs below start
from that stack). -/
def functionSelectorCode (fns : List (Nat × Nat)) (hasFallback : Bool) : List Item :=
  cmpBlock fns ++ fbPart hasFallback ++ unpackSections fns

/-- The value `loadFromMemory(0, IntegerType(32), true)` leaves on the
stack: the first 4 bytes of calldata as a zero-padded big-endian integer.
Modelled from the spec (CompilerUtils is not part of the sources). -/
def firstFourBytes (cd : List Nat) : Nat :=
  cd.getD 0 0 * 2 ^ 24 + cd.getD 1 0 * 2 ^ 16 + cd.getD 2 0 * 2 ^ 8 + cd.getD 3 0

/-- Resolve a jump: the items after the first definition of tag `t`. -/
def afterTag (t : TagId) : List Item → Option (List Item)
  | [] => none
  | .tagDef t' :: rest => if t' = t then some rest else afterTag t rest
  | _ :: rest => afterTag t rest

/-- Where a run of the selector prologue ends up. -/
inductive Outcome where
  | reachedUnpacker (fid : Nat) (stk : List Nat)
  | reachedFallback (stk : List Nat)
  | stopped (stk : List Nat)
  | stuck
  deriving DecidableEq, Repr

/-- Result of running a straight-line segment: either a final outcome or a
request to jump to a tag with the current stack. -/
inductive StepRes where
  | done (o : Outcome)
  | jump (t : TagId) (stk : List Nat)
  deriving DecidableEq, Repr

/-- Straight-line execution of prologue items: stack-machine steps for
DUP1 / PUSH / EQ / JUMPI, halting at STOP and at the opaque markers.  A
taken conditional jump is returned to the caller for resolution. -/
def runLin : List Item → List Nat → StepRes
  | [], _ => .done .stuck
  | i :: rest, stk =>
    match i, stk with
    | .push v, _ => runLin rest (v :: stk)
    | .pushTag _, _ => runLin rest (0 :: stk)
    | .dup1, a :: s => runLin rest (a :: a :: s)
    | .dup1, [] => .done .stuck
    | .eq, a :: b :: s => runLin rest ((if a = b then 1 else 0) :: s)
    | .eq, [_] => .done .stuck
    | .eq, [] => .done .stuck
    | .condJumpTo t, c :: s => if c = 0 then runLin rest s else .jump t s
    | .condJumpTo _, [] => .done .stuck
    | .tagDef _, _ => runLin rest stk
    | .jumpToFn _, _ => .done .stuck
    | .stop, _ => .done (.stopped stk)
    | .unpack fid, _ => .done (.reachedUnpacker fid stk)
    | .fallbackBody, _ => .done (.reachedFallback stk)
    | .packRet _, _ => .done .stuck

/-- Resolve up to `jumps` taken jumps against the full program `prog`. -/
def runJumps : Nat → List Item → StepRes → Outcome
  | _, _, .done o => o
  | 0, _, .jump _ _ => .stuck
  | j + 1, prog, .jump t stk =>
      match afterTag t prog with
      | some cont => runJumps j prog (runLin cont stk)
      | none => .stuck

/-- A full run of the selector prologue on calldata whose first four bytes
decode to `h` (the prologue takes at most one jump). -/
def runSelector (fns : List (Nat × Nat)) (hasFallback : Bool) (h : Nat) : Outcome :=
  runJumps 1 (functionSelectorCode fns hasFallback)
    (runLin (functionSelectorCode fns hasFallback) [h])

lemma afterTag_append (t : TagId) (l₁ l₂ : List Item) :
    afterTag t (l₁ ++ l₂) =
      match afterTag t l₁ with
      | some r => some (r ++ l₂)
      | none => afterTag t l₂ := by
  induction l₁ with
  | nil => simp [afterTag]
  | cons i rest ih =>
      cases i with
      | tagDef t' =>
          by_cases h : t' = t
          · simp [afterTag, h]
          · simp [afterTag, h, ih]
      | push v => simpa [afterTag] using ih
      | pushTag t' => simpa [afterTag] using ih
      | dup1 => simpa [afterTag] using ih
      | eq => simpa [afterTag] using ih
      | condJumpTo t' => simpa [afterTag] using ih
      | jumpToFn f => simpa [afterTag] using ih
      | stop => simpa [afterTag] using ih
      | unpack f => simpa [afterTag] using ih
      | fallbackBody => simpa [afterTag] using ih
      | packRet f => simpa [afterTag] using ih

lemma afterTag_cmpBlock (t : TagId) (fns : List (Nat × Nat)) :
    afterTag t (cmpBlock fns) = none := by
  induction fns with
  | nil => rfl
  | cons sf rest ih =>
      simp only [cmpBlock, List.flatMap_cons]
      rw [afterTag_append]
      simpa [afterTag] using ih

lemma afterTag_fbPart_entry (s : Nat) (fb : Bool) :
    afterTag (.entry s) (fbPart fb) = none := by
  cases fb <;> simp [fbPart, afterTag]

lemma afterTag_unpackSections (fns : List (Nat × Nat)) (s fid : Nat)
    (hmem : (s, fid) ∈ fns) (hnd : (fns.map Prod.fst).Nodup) :
    ∃ tl, afterTag (.entry s) (unpackSections fns) =
      some (.pushTag (.fret s) :: .unpack fid :: tl) := by
  induction fns with
  | nil => cases hmem
  | cons sf rest ih =>
      simp only [List.map_cons, List.nodup_cons] at hnd
      rcases List.mem_cons.mp hmem with h | h
      · subst h
        refine ⟨[.jumpToFn fid, .tagDef (.fret s), .packRet fid] ++ unpackSections rest, ?_⟩
        simp [unpackSections, afterTag, List.flatMap]
      · have hs : s ∈ rest.map Prod.fst := List.mem_map.mpr ⟨(s, fid), h, rfl⟩
        have hne : sf.1 ≠ s := fun heq => hnd.1 (heq ▸ hs)
        obtain ⟨tl, htl⟩ := ih h hnd.2
        refine ⟨tl, ?_⟩
        simp only [unpackSections, List.flatMap_cons]
        rw [afterTag_append]
        have hskip : afterTag (.entry s)
            [Item.tagDef (.entry sf.1), .pushTag (.fret sf.1), .unpack sf.2,
             .jumpToFn sf.2, .tagDef (.fret sf.1), .packRet sf.2] = none := by
          simp [afterTag, hne]
        rw [hskip]
        exact htl

lemma runLin_cmp_miss (fns : List (Nat × Nat)) (rest : List Item) (h : Nat)
    (hmiss : ∀ p ∈ fns, p.1 ≠ h) :
    runLin (cmpBlock fns ++ rest) [h] = runLin rest [h] := by
  induction fns with
  | nil => simp [cmpBlock]
  | cons sf t ih =>
      have hne : sf.1 ≠ h := hmiss sf (List.mem_cons_self sf t)
      simp only [cmpBlock, List.flatMap_cons, List.cons_append, List.append_assoc]
      simp only [runLin, hne, if_false, if_true]
      exact ih (fun p hp => hmiss p (List.mem_cons_of_mem sf hp))

lemma runLin_cmp_hit (fns : List (Nat × Nat)) (rest : List Item) (s fid : Nat)
    (hmem : (s, fid) ∈ fns) (hnd : (fns.map Prod.fst).Nodup) :
    runLin (cmpBlock fns ++ rest) [s] = .jump (.entry s) [s] := by
  induction fns with
  | nil => cases hmem
  | cons sf t ih =>
      simp only [List.map_cons, List.nodup_cons] at hnd
      rcases List.mem_cons.mp hmem with h | h
      · subst h
        simp [cmpBlock, runLin]
      · have hs : s ∈ t.map Prod.fst := List.mem_map.mpr ⟨(s, fid), h, rfl⟩
        have hne : sf.1 ≠ s := fun heq => hnd.1 (heq ▸ hs)
        simp only [cmpBlock, List.flatMap_cons, List.cons_append, List.append_assoc]
        simp only [runLin, hne, if_false]
        exact ih h hnd.2

/-- C1: for a contract with at least one external function the emitted
runtime prologue loads the first 4 bytes of calldata and dispatches on
them: calldata beginning with the selector of external function `fid`
reaches `fid`'s calldata-unpacker entry; calldata whose selector matches
no external function reaches the fallback body if the contract defines a
fallback, and otherwise reaches a STOP instruction. -/
theorem functionSelector_dispatch (fns : List (Nat × Nat)) (fb : Bool) (cd : List Nat)
    (hnd : (fns.map Prod.fst).Nodup) :
    (∀ s fid, (s, fid) ∈ fns → firstFourBytes cd = s →
      runSelector fns fb (firstFourBytes cd) =
        .reachedUnpacker fid [0, s]) ∧
    ((∀ p ∈ fns, p.1 ≠ firstFourBytes cd) →
      runSelector fns fb (firstFourBytes cd) =
        (if fb then .reachedFallback [0, firstFourBytes cd]
         else .stopped [firstFourBytes cd])) := by
  constructor
  · intro s fid hmem hsel
    rw [hsel]
    unfold runSelector functionSelectorCode
    rw [List.append_assoc]
    rw [runLin_cmp_hit fns _ s fid hmem hnd]
    obtain ⟨tl, htl⟩ := afterTag_unpackSections fns s fid hmem hnd
    have hprog : afterTag (.entry s)
        (cmpBlock fns ++ (fbPart fb ++ unpackSections fns)) =
          some (.pushTag (.fret s) :: .unpack fid :: tl) := by
      rw [afterTag_append, afterTag_cmpBlock, afterTag_append, afterTag_fbPart_entry, htl]
    simp only [runJumps, List.append_assoc] at *
    rw [hprog]
    simp [runLin, runJumps]
  · intro hmiss
    unfold runSelector functionSelectorCode
    rw [List.append_assoc, runLin_cmp_miss fns _ _ hmiss]
    cases fb <;> simp [fbPart, runLin, runJumps]

/-- Witness for `functionSelector_dispatch`: a contract with interface
functions at selectors 1 and 2 and a fallback, called with selector 1
(hit) and with an unknown selector (fallback). -/
theorem functionSelector_dispatch_witness :
    runSelector [(1, 10), (2, 20)] true (firstFourBytes [0, 0, 0, 1]) =
        .reachedUnpacker 10 [0, 1] ∧
    runSelector [(1, 10), (2, 20)] false (firstFourBytes [0, 0, 0, 7]) =
        (if false then .reachedFallback [0, firstFourBytes [0, 0, 0, 7]]
         else .stopped [firstFourBytes [0, 0, 0, 7]]) := by
  constructor
  · exact (functionSelector_dispatch [(1, 10), (2, 20)] true [0, 0, 0, 1]
      (by decide)).1 1 10 (by decide) (by decide)
  · exact (functionSelector_dispatch [(1, 10), (2, 20)] false [0, 0, 0, 7]
      (by decide)).2 (by decide)

/-! ## Deterministic selector order (`Compiler::appendFunctionSelector`
iterating a `std::map` keyed by 4-byte selectors) -/

/-- Modelled from the spec: `getInterfaceFunctions` (declared in the AST,
which is not part of the sources) returns a `map<FixedHash<4>,
FunctionTypePointer>`; a C++ `std::map` is an ordered map, iterated in
ascending key order, and an insertion whose key is already present leaves
the map unchanged.  `mapInsert` is one such insertion into a sorted
association list. -/
def mapInsert (m : List (Nat × Nat)) (p : Nat × Nat) : List (Nat × Nat) :=
  match m with
  | [] => [p]
  | q :: t =>
      if p.1 < q.1 then p :: q :: t
      else if p.1 = q.1 then q :: t
      else q :: mapInsert t p

/-- The interface-function map built from the contract's external
functions in AST traversal order. -/
def interfaceMap (l : List (Nat × Nat)) : List (Nat × Nat) := l.foldl mapInsert []

/-- Key order on map entries. -/
def keyLt (p q : Nat × Nat) : Prop := p.1 < q.1

instance : DecidableRel keyLt := fun p q => Nat.decLt p.1 q.1

instance : IsAntisymm (Nat × Nat) keyLt :=
  ⟨fun _ _ h1 h2 => absurd h2 (lt_asymm h1)⟩

lemma mem_mapInsert (m : List (Nat × Nat)) (p x : Nat × Nat)
    (hx : x ∈ mapInsert m p) : x ∈ m ∨ x = p := by
  induction m with
  | nil => simp [mapInsert] at hx; simp [hx]
  | cons q t ih =>
      simp only [mapInsert] at hx
      split at hx
      · rcases List.mem_cons.mp hx with h | h
        · right; exact h
        · left; exact h
      · split at hx
        · left; exact hx
        · rcases List.mem_cons.mp hx with h | h
          · left; exact List.mem_cons.mpr (Or.inl h)
          · rcases ih h with h' | h'
            · left; exact List.mem_cons.mpr (Or.inr h')
            · right; exact h'

lemma pairwise_mapInsert (m : List (Nat × Nat)) (p : Nat × Nat)
    (hm : m.Pairwise keyLt) : (mapInsert m p).Pairwise keyLt := by
  induction m with
  | nil => simp [mapInsert]
  | cons q t ih =>
      rcases List.pairwise_cons.mp hm with ⟨hq, ht⟩
      simp only [mapInsert]
      split
      · rename_i hlt
        refine List.pairwise_cons.mpr ⟨?_, hm⟩
        intro x hx
        rcases List.mem_cons.mp hx with h | h
        · subst h; exact hlt
        · exact lt_trans hlt (hq x h)
      · split
        · exact hm
        · rename_i hnlt hne
          have hqp : keyLt q p := by
            show q.1 < p.1
            omega
          refine List.pairwise_cons.mpr ⟨?_, ih ht⟩
          intro x hx
          rcases mem_mapInsert t p x hx with h | h
          · exact hq x h
          · subst h; exact hqp

lemma mapInsert_perm (m : List (Nat × Nat)) (p : Nat × Nat)
    (hnew : p.1 ∉ m.map Prod.fst) : (mapInsert m p).Perm (p :: m) := by
  induction m with
  | nil => simp [mapInsert]
  | cons q t ih =>
      simp only [List.map_cons, List.mem_cons] at hnew
      push_neg at hnew
      simp only [mapInsert]
      split
      · exact List.Perm.refl _
      · split
        · rename_i hpe
          exact absurd hpe hnew.1
        · refine (List.Perm.cons q (ih hnew.2)).trans ?_
          exact List.Perm.swap p q t

lemma interfaceMap_go (l acc : List (Nat × Nat))
    (hacc : acc.Pairwise keyLt)
    (hdisj : ∀ b ∈ l.map Prod.fst, b ∉ acc.map Prod.fst)
    (hnd : (l.map Prod.fst).Nodup) :
    (l.foldl mapInsert acc).Perm (acc ++ l) ∧
      (l.foldl mapInsert acc).Pairwise keyLt := by
  induction l generalizing acc with
  | nil => exact ⟨by simp, hacc⟩
  | cons p t ih =>
      simp only [List.map_cons, List.nodup_cons] at hnd
      have hnewp : p.1 ∉ acc.map Prod.fst :=
        hdisj p.1 (by simp)
      have hins : (mapInsert acc p).Perm (p :: acc) := mapInsert_perm acc p hnewp
      have hinsSorted : (mapInsert acc p).Pairwise keyLt := pairwise_mapInsert acc p hacc
      have hdisj' : ∀ b ∈ t.map Prod.fst, b ∉ (mapInsert acc p).map Prod.fst := by
        intro b hb hmem
        rcases List.mem_map.mp hmem with ⟨x, hx, hxb⟩
        rcases mem_mapInsert acc p x hx with h | h
        · exact hdisj b (by simp [hb]) (List.mem_map.mpr ⟨x, h, hxb⟩)
        · subst h
          rw [← hxb] at hb
          exact hnd.1 hb
      obtain ⟨hperm, hsorted⟩ := ih (mapInsert acc p) hinsSorted hdisj' hnd.2
      refine ⟨?_, hsorted⟩
      refine hperm.trans ?_
      refine (hins.append_right t).trans ?_
      exact List.perm_middle.symm

/-- C9: the selector comparison sequence is emitted in a stable order over
the 4-byte selectors — the interface map is sorted strictly by selector,
and the emitted selector prologue depends only on the set of
`(selector, function)` pairs, not on the AST traversal order that
produced them; hence compiling the same contract twice (its interface
functions being the same set) yields identical emitted code. -/
theorem selectorOrder_deterministic (fb : Bool) (l₁ l₂ : List (Nat × Nat))
    (hnd : (l₁.map Prod.fst).Nodup) (hperm : l₁.Perm l₂) :
    functionSelectorCode (interfaceMap l₁) fb =
      functionSelectorCode (interfaceMap l₂) fb ∧
    ((interfaceMap l₁).map Prod.fst).Pairwise (· < ·) := by
  have hnd₂ : (l₂.map Prod.fst).Nodup := (hperm.map Prod.fst).nodup_iff.mp hnd
  obtain ⟨hp₁, hs₁⟩ := interfaceMap_go l₁ [] (List.Pairwise.nil) (by simp) hnd
  obtain ⟨hp₂, hs₂⟩ := interfaceMap_go l₂ [] (List.Pairwise.nil) (by simp) hnd₂
  simp only [List.nil_append] at hp₁ hp₂
  have hmapEq : interfaceMap l₁ = interfaceMap l₂ := by
    apply List.eq_of_perm_of_sorted (r := keyLt)
    · exact (hp₁.trans hperm).trans hp₂.symm
    · exact hs₁
    · exact hs₂
  refine ⟨by rw [hmapEq], ?_⟩
  have hs₁' : (interfaceMap l₁).Pairwise (fun a b => a.1 < b.1) := hs₁
  exact List.pairwise_map.mpr hs₁'

/-- Witness for `selectorOrder_deterministic`: the same two interface
functions inserted in two different traversal orders. -/
theorem selectorOrder_deterministic_witness :
    functionSelectorCode (interfaceMap [(2, 20), (1, 10)]) true =
      functionSelectorCode (interfaceMap [(1, 10), (2, 20)]) true ∧
    ((interfaceMap [(2, 20), (1, 10)]).map Prod.fst).Pairwise (· < ·) := by
  have h := selectorOrder_deterministic true [(2, 20), (1, 10)] [(1, 10), (2, 20)]
    (by decide) (by decide)
  exact h

/-! ## Statement visitors (`Compiler::visit(...)`, `StackHeightChecker`,
`Compiler::appendModifierOrFunctionCode`) -/

/-- Emissions of the statement visitors.  POP instructions emitted
directly by `Compiler.cpp` (return-cleanup and modifier-surplus pops) and
the jump to the function's return tag are distinguished; every other
emission — tags, jumps, and everything delegated to the
ExpressionCompiler or CompilerUtils — is an opaque `.op`. -/
inductive Ev where
  | pop
  | jumpToReturnTag
  | op
  deriving DecidableEq, Repr

/-- The per-function compilation state the statement visitors touch: the
virtual stack height of the CompilerContext and `m_stackCleanupForReturn`. -/
structure Ctx where
  height : Int
  cleanup : Nat
  deriving DecidableEq, Repr

/-- Statements as the compiler's visitors distinguish them.  Expressions
are abstracted to the stack size of their (converted) type, the size the
external ExpressionCompiler pushes (modelled from the spec; the
ExpressionCompiler is not part of the sources).  Absent optional
sub-statements and empty blocks are `skip`; a block's default AST
traversal is a `seq` of its children. -/
inductive Stmt where
  | skip
  | seq (s1 s2 : Stmt)
  | ifS (condSize : Nat) (thenS elseS : Stmt)
  | whileS (condSize : Nat) (body : Stmt)
  | forS (ini : Stmt) (condSize : Option Nat) (loopExpr : Stmt) (body : Stmt)
  | breakS
  | continueS
  | returnS (retSize : Option Nat)
  | varDeclS (initSize : Option Nat)
  | exprS (size : Nat)
  | placeholderS
  deriving DecidableEq, Repr

/-- A modifier frame of `appendModifierOrFunctionCode`: total stack sizes
of the modifier's parameters and local variables and its body.  The
wrapped function body is the final frame, with `params = locals = 0`
(visiting it in the source neither adjusts `m_stackCleanupForReturn` nor
emits surplus pops). -/
structure Frame where
  params : Nat
  locals : Nat
  body : Stmt
  deriving DecidableEq, Repr

/-- `StackHeightChecker`: record the height at construction, `solAssert`
equality at `check()`.  A violated assertion aborts compilation (`none`). -/
def withChecker (ctx : Ctx) (r : Option (Ctx × List Ev)) : Option (Ctx × List Ev) :=
  match r with
  | some (c, tr) => if c.height = ctx.height then some (c, tr) else none
  | none => none

/-- Context after the optional `for` condition: compile it (pushing its
size), `ISZERO`, conditional jump to the loop end (consuming it). -/
def forCondCtx (cond : Option Nat) (c1 : Ctx) : Ctx :=
  match cond with
  | some c => ⟨c1.height + c - 1, c1.cleanup⟩
  | none => c1

/-- Emissions of the optional `for` condition. -/
def forCondTrace (cond : Option Nat) : List Ev :=
  match cond with
  | some _ => [.op, .op, .op]
  | none => []

/-- Structural size of a statement (termination measure). -/
def stmtSize : Stmt → Nat
  | .skip => 1
  | .seq a b => stmtSize a + stmtSize b + 1
  | .ifS _ t e => stmtSize t + stmtSize e + 1
  | .whileS _ b => stmtSize b + 1
  | .forS i _ l b => stmtSize i + stmtSize l + stmtSize b + 1
  | .breakS => 1
  | .continueS => 1
  | .returnS _ => 1
  | .varDeclS _ => 1
  | .exprS _ => 1
  | .placeholderS => 1

/-- Termination measure of the modifier chain. -/
def frameWeight : List Frame → Nat
  | [] => 0
  | f :: r => stmtSize f.body + 2 + frameWeight r

mutual

/-- The statement visitors of `Compiler.cpp`.  Each case mirrors the
corresponding `Compiler::visit` overload: emissions are traced, the
virtual stack height follows the emitted items (`compileExpression`
pushes the expression's converted size, `appendConditionalJump` consumes
the condition, `moveToStackVariable` and `popStackElement` consume the
value), and the checker-wrapped visitors compare heights on exit.
`pending` is the chain of remaining modifier frames consumed by
placeholder statements; a placeholder with no remaining frame models the
type-checker-excluded recursion into the function body and fails. -/
def visit : Stmt → List Frame → Ctx → Option (Ctx × List Ev)
  | .skip, _, ctx => some (ctx, [])
  | .seq s1 s2, pending, ctx =>
      match visit s1 pending ctx with
      | none => none
      | some (c1, t1) =>
          match visit s2 pending c1 with
          | none => none
          | some (c2, t2) => some (c2, t1 ++ t2)
  | .ifS c t e, pending, ctx =>
      withChecker ctx (
        match visit e pending ⟨ctx.height + c - 1, ctx.cleanup⟩ with
        | none => none
        | some (c2, tr2) =>
            match visit t pending c2 with
            | none => none
            | some (c3, tr3) =>
                some (c3, [.op, .op] ++ tr2 ++ [.op, .op] ++ tr3 ++ [.op]))
  | .whileS c b, pending, ctx =>
      withChecker ctx (
        match visit b pending ⟨ctx.height + c - 1, ctx.cleanup⟩ with
        | none => none
        | some (c2, tr2) =>
            some (c2, [.op, .op, .op, .op] ++ tr2 ++ [.op, .op]))
  | .forS ini cond loopExpr b, pending, ctx =>
      withChecker ctx (
        match visit ini pending ctx with
        | none => none
        | some (c1, tr1) =>
            match visit b pending (forCondCtx cond c1) with
            | none => none
            | some (c3, tr3) =>
                match visit loopExpr pending c3 with
                | none => none
                | some (c4, tr4) =>
                    some (c4, tr1 ++ [.op] ++ forCondTrace cond ++ tr3 ++ tr4 ++
                      [.op, .op]))
  | .breakS, _, ctx => some (ctx, [.op])
  | .continueS, _, ctx => some (ctx, [.op])
  | .returnS r, _, ctx =>
      some (ctx,
        (match r with
         | some _ => [Ev.op, Ev.op]
         | none => []) ++
        List.replicate ctx.cleanup Ev.pop ++ [Ev.jumpToReturnTag])
  | .varDeclS r, _, ctx =>
      withChecker ctx (
        match r with
        | some n => some (⟨ctx.height + n - n, ctx.cleanup⟩, [.op, .op])
        | none => some (ctx, []))
  | .exprS n, _, ctx =>
      withChecker ctx (some (⟨ctx.height + n - n, ctx.cleanup⟩, [.op, .op]))
  | .placeholderS, pending, ctx => withChecker ctx (runFrames pending ctx)
  termination_by s pending _ => stmtSize s + frameWeight pending + 1
  decreasing_by all_goals (simp [stmtSize, frameWeight]; try omega)

/-- `Compiler::appendModifierOrFunctionCode` at the depth whose remaining
modifier chain is `pending`: add the current modifier's parameters
(compiling their arguments) and local variables, account for
`m_stackCleanupForReturn += params + locals`, visit the modifier body,
then pop the surplus and restore the counter. -/
def runFrames : List Frame → Ctx → Option (Ctx × List Ev)
  | [], _ => none
  | f :: rest, ctx =>
      match visit f.body rest
          ⟨ctx.height + f.params + f.locals, ctx.cleanup + (f.params + f.locals)⟩ with
      | none => none
      | some (c2, tr) =>
          some (⟨c2.height - (f.params + f.locals), c2.cleanup - (f.params + f.locals)⟩,
            List.replicate (f.params + f.locals) Ev.op ++ tr ++
              List.replicate (f.params + f.locals) Ev.pop)
  termination_by pending _ => frameWeight pending
  decreasing_by all_goals (simp [stmtSize, frameWeight]; try omega)

end

/-- `Compiler::visit(FunctionDefinition)`, restricted to what C3/C6 need:
reset `m_stackCleanupForReturn` to 0 and expand the modifier chain around
the function body. -/
def compileFunctionBody (mods : List Frame) (fb : Stmt) (h : Int) :
    Option (Ctx × List Ev) :=
  runFrames (mods ++ [⟨0, 0, fb⟩]) ⟨h, 0⟩

/-- The statement kinds wrapped in a `StackHeightChecker` by the source:
if, while, for, variable-declaration statement, expression statement,
placeholder. -/
def isStructured : Stmt → Bool
  | .ifS _ _ _ => true
  | .whileS _ _ => true
  | .forS _ _ _ _ => true
  | .varDeclS _ => true
  | .exprS _ => true
  | .placeholderS => true
  | _ => false

lemma withChecker_height (ctx : Ctx) (r : Option (Ctx × List Ev)) (c : Ctx) (tr : List Ev)
    (h : withChecker ctx r = some (c, tr)) : c.height = ctx.height := by
  unfold withChecker at h
  cases r with
  | none => exact absurd h (by simp)
  | some p =>
      obtain ⟨c', tr'⟩ := p
      by_cases he : c'.height = ctx.height
      · simp only [he, if_true] at h
        obtain ⟨h1, _⟩ := Prod.mk.injEq .. ▸ Option.some.inj h
        rw [← h1]
        exact he
      · simp [he] at h

/-- C3: for every structured statement (if, while, for, expression
statement, variable-declaration statement, placeholder), the virtual
stack height recorded in the CompilerContext is identical before and
after a successful visit; a violation makes the `StackHeightChecker`'s
assertion fail, aborting compilation. -/
theorem stackHeight_invariant (s : Stmt) (pending : List Frame) (ctx ctx' : Ctx)
    (tr : List Ev) (hs : isStructured s = true)
    (h : visit s pending ctx = some (ctx', tr)) :
    ctx'.height = ctx.height := by
  cases s with
  | ifS c t e =>
      rw [visit.eq_def] at h
      exact withChecker_height _ _ _ _ h
  | whileS c b =>
      rw [visit.eq_def] at h
      exact withChecker_height _ _ _ _ h
  | forS ini cond loopExpr b =>
      rw [visit.eq_def] at h
      exact withChecker_height _ _ _ _ h
  | varDeclS r =>
      rw [visit.eq_def] at h
      exact withChecker_height _ _ _ _ h
  | exprS n =>
      rw [visit.eq_def] at h
      exact withChecker_height _ _ _ _ h
  | placeholderS =>
      rw [visit.eq_def] at h
      exact withChecker_height _ _ _ _ h
  | skip => simp [isStructured] at hs
  | seq s1 s2 => simp [isStructured] at hs
  | breakS => simp [isStructured] at hs
  | continueS => simp [isStructured] at hs
  | returnS r => simp [isStructured] at hs

/-- Witness for `stackHeight_invariant`: an expression statement of a
one-slot expression, visited successfully with unchanged height. -/
theorem stackHeight_invariant_witness :
    isStructured (.exprS 1) = true ∧
    visit (.exprS 1) [] ⟨0, 0⟩ = some (⟨0, 0⟩, [Ev.op, Ev.op]) ∧
    (⟨0, 0⟩ : Ctx).height = (⟨0, 0⟩ : Ctx).height := by
  have hv : visit (.exprS 1) [] ⟨0, 0⟩ = some (⟨0, 0⟩, [Ev.op, Ev.op]) := by
    simp [visit, withChecker]
  exact ⟨rfl, hv, stackHeight_invariant (.exprS 1) [] ⟨0, 0⟩ ⟨0, 0⟩ [Ev.op, Ev.op] rfl hv⟩

/-- The expression part of a `Return` visit: compile the expression
converted to the first return variable's type, then
`moveToStackVariable`. -/
def retPre : Option Nat → List Ev
  | some _ => [Ev.op, Ev.op]
  | none => []

/-- The parameter/local initialization emissions of a chain of
pass-through modifiers, in order. -/
def passIn (mods : List (Nat × Nat)) : List Ev :=
  mods.flatMap fun pl => List.replicate (pl.1 + pl.2) Ev.op

/-- The surplus pops emitted after each modifier body, innermost first. -/
def passOut (mods : List (Nat × Nat)) : List Ev :=
  mods.reverse.flatMap fun pl => List.replicate (pl.1 + pl.2) Ev.pop

/-- Total stack size of all modifier parameters and locals. -/
def sumSizes (mods : List (Nat × Nat)) : Nat :=
  (mods.map fun pl => pl.1 + pl.2).sum

lemma visit_returnS (pending : List Frame) (ctx : Ctx) (r : Option Nat) :
    visit (.returnS r) pending ctx =
      some (ctx, retPre r ++ List.replicate ctx.cleanup Ev.pop ++
        [Ev.jumpToReturnTag]) := by
  cases r <;> simp [visit, retPre]

lemma runFrames_passThrough (mods : List (Nat × Nat)) (r : Option Nat) (ctx : Ctx) :
    runFrames ((mods.map fun pl => (⟨pl.1, pl.2, .placeholderS⟩ : Frame)) ++
        [⟨0, 0, .returnS r⟩]) ctx =
      some (ctx, passIn mods ++
        (retPre r ++ List.replicate (ctx.cleanup + sumSizes mods) Ev.pop ++
          [Ev.jumpToReturnTag]) ++ passOut mods) := by
  induction mods generalizing ctx with
  | nil =>
      obtain ⟨ch, cc⟩ := ctx
      simp only [List.map_nil, List.nil_append, runFrames, visit_returnS]
      simp [passIn, passOut, sumSizes]
  | cons pl rest ih =>
      obtain ⟨ch, cc⟩ := ctx
      simp only [List.map_cons, List.cons_append, runFrames]
      have hinner : visit Stmt.placeholderS
          ((rest.map fun pl => (⟨pl.1, pl.2, .placeholderS⟩ : Frame)) ++
            [⟨0, 0, .returnS r⟩])
          ⟨(⟨ch, cc⟩ : Ctx).height + (⟨pl.1, pl.2, Stmt.placeholderS⟩ : Frame).params +
              (⟨pl.1, pl.2, Stmt.placeholderS⟩ : Frame).locals,
            (⟨ch, cc⟩ : Ctx).cleanup + ((⟨pl.1, pl.2, Stmt.placeholderS⟩ : Frame).params +
              (⟨pl.1, pl.2, Stmt.placeholderS⟩ : Frame).locals)⟩ =
          some (⟨ch + pl.1 + pl.2, cc + (pl.1 + pl.2)⟩,
            passIn rest ++
              (retPre r ++ List.replicate (cc + (pl.1 + pl.2) + sumSizes rest) Ev.pop ++
                [Ev.jumpToReturnTag]) ++ passOut rest) := by
        simp only [visit]
        rw [ih]
        simp [withChecker]
      rw [hinner]
      simp only [Option.some.injEq, Prod.mk.injEq]
      constructor
      · show (⟨ch + pl.1 + pl.2 - (pl.1 + pl.2), cc + (pl.1 + pl.2) - (pl.1 + pl.2)⟩ : Ctx) =
          (⟨ch, cc⟩ : Ctx)
        have h1 : ch + (pl.1 : Int) + (pl.2 : Int) - ((pl.1 + pl.2 : Nat) : Int) = ch := by
          push_cast
          ring
        have h2 : cc + (pl.1 + pl.2) - (pl.1 + pl.2) = cc := by omega
        rw [Ctx.mk.injEq]
        constructor
        · push_cast
          ring
        · omega
      · simp only [passIn, passOut, sumSizes, List.flatMap_cons, List.reverse_cons,
          List.flatMap_append, List.flatMap_cons, List.flatMap_nil, List.append_nil,
          List.map_cons, List.sum_cons, List.append_assoc]
        have : cc + (pl.1 + pl.2) + (rest.map fun pl => pl.1 + pl.2).sum =
            cc + (pl.1 + pl.2 + (rest.map fun pl => pl.1 + pl.2).sum) := by omega
        rw [this]

/-- C6: a `return` emits exactly `m_stackCleanupForReturn` POP
instructions directly before the jump to the function's return tag; when
the function body sits under a chain of modifier frames,
`m_stackCleanupForReturn` at the body is the sum over all enclosing
modifier frames of the stack sizes of their parameters and locals — in
particular, a function with two modifiers each declaring one parameter
and one local emits exactly 4 POPs for an early return from the body. -/
theorem modifier_return_unwinding :
    (∀ (pending : List Frame) (ctx : Ctx) (r : Option Nat),
        visit (.returnS r) pending ctx =
          some (ctx, retPre r ++ List.replicate ctx.cleanup Ev.pop ++
            [Ev.jumpToReturnTag])) ∧
    (∀ (mods : List (Nat × Nat)) (h : Int) (r : Option Nat),
        compileFunctionBody (mods.map fun pl => ⟨pl.1, pl.2, .placeholderS⟩)
            (.returnS r) h =
          some (⟨h, 0⟩, passIn mods ++
            (retPre r ++ List.replicate (sumSizes mods) Ev.pop ++
              [Ev.jumpToReturnTag]) ++ passOut mods)) ∧
    compileFunctionBody [⟨1, 1, .placeholderS⟩, ⟨1, 1, .placeholderS⟩]
        (.returnS none) 0 =
      some (⟨0, 0⟩,
        [Ev.op, Ev.op, Ev.op, Ev.op] ++
          (List.replicate 4 Ev.pop ++ [Ev.jumpToReturnTag]) ++
          [Ev.pop, Ev.pop, Ev.pop, Ev.pop]) := by
  have hgen : ∀ (mods : List (Nat × Nat)) (h : Int) (r : Option Nat),
      compileFunctionBody (mods.map fun pl => ⟨pl.1, pl.2, .placeholderS⟩)
          (.returnS r) h =
        some (⟨h, 0⟩, passIn mods ++
          (retPre r ++ List.replicate (sumSizes mods) Ev.pop ++
            [Ev.jumpToReturnTag]) ++ passOut mods) := by
    intro mods h r
    unfold compileFunctionBody
    rw [runFrames_passThrough]
    simp
  refine ⟨visit_returnS, hgen, ?_⟩
  have h2 := hgen [(1, 1), (1, 1)] 0 none
  simp only [List.map_cons, List.map_nil] at h2
  rw [h2]
  simp [passIn, passOut, sumSizes, retPre]
  try decide

/-! ## Function epilogue stack re-shuffle (`Compiler::visit(FunctionDefinition)`,
the `stackLayout` loop) -/

/-- Abstract contents of the runtime stack slots at the function's return
tag: the return address, arguments, return values, local variables. -/
inductive Val where
  | retAddr
  | arg (i : Nat)
  | ret (i : Nat)
  | localVar (i : Nat)
  deriving DecidableEq, Repr

/-- Instructions emitted by the epilogue loop: POP and SWAP with a depth
(`swapInstruction(stackLayout.size() - stackLayout.back() - 1)`). -/
inductive EvmOp where
  | pop
  | swap (depth : Nat)
  deriving DecidableEq, Repr

/-- Exchange the element at index `j` with the last element (the effect
of `swap(stackLayout[stackLayout.back()], stackLayout.back())` on the
layout vector, and of the emitted SWAP instruction on the runtime
stack, indexing from the bottom). -/
def swapTop (j : Nat) (l : List α) : List α :=
  match l[j]?, l.getLast? with
  | some a, some b => (l.set j b).set (l.length - 1) a
  | some _, none => l
  | none, some _ => l
  | none, none => l

/-- The loop
`while (stackLayout.back() != int(stackLayout.size() - 1)) { ... }`:
pop a negative (to-be-discarded) back element, otherwise swap the back
element into its target position, emitting POP / SWAP; fuel-bounded.
Returns the emitted instructions and the final layout. -/
def shuffleLoop : Nat → List Int → Option (List EvmOp × List Int)
  | 0, _ => none
  | fuel + 1, il =>
      match il.getLast? with
      | none => none
      | some b =>
          if b = (il.length : Int) - 1 then some ([], il)
          else if b < 0 then
            match shuffleLoop fuel il.dropLast with
            | none => none
            | some (ops, il') => some (.pop :: ops, il')
          else
            match shuffleLoop fuel (swapTop b.toNat il) with
            | none => none
            | some (ops, il') =>
                some (.swap (il.length - 1 - b.toNat) :: ops, il')

/-- Run the emitted instructions on a runtime stack (bottom at index 0,
top at the end): POP drops the top; SWAP d exchanges the top with the
element `d` positions below it. -/
def runOps : List EvmOp → List Val → List Val
  | [], st => st
  | .pop :: ops, st => runOps ops st.dropLast
  | .swap d :: ops, st => runOps ops (swapTop (st.length - 1 - d) st)

/-- The initial layout vector of the epilogue:
`[returns_size] ++ [-1] * args_size ++ [0 .. returns_size-1] ++ [-1] * locals_size`. -/
def initialLayout (a r l : Nat) : List Int :=
  (r : Int) :: (List.replicate a (-1) ++ (List.range r).map Int.ofNat ++
    List.replicate l (-1))

/-- The runtime stack at the return tag, bottom to top:
return address, arguments, return values, local variables. -/
def entryStack (a r l : Nat) : List Val :=
  .retAddr :: ((List.range a).map .arg ++ (List.range r).map .ret ++
    (List.range l).map .localVar)

/-- The identity layout `[0, 1, .., r]` the loop must reach. -/
def idLayout (r : Nat) : List Int := (List.range (r + 1)).map Int.ofNat

/-- The stack the epilogue must produce, bottom to top: the return values
in declaration order, then the return address on top. -/
def targetStack (r : Nat) : List Val := (List.range r).map .ret ++ [.retAddr]

/-- The value destined for final stack position `k`. -/
def finalVal (r k : Nat) : Val := if k < r then .ret k else .retAddr

/-- The epilogue of `Compiler::visit(FunctionDefinition)` for a function
with total argument/return/local stack sizes `a`, `r`, `l`, run with
enough fuel (one more than the layout length bounds the number of loop
iterations). -/
def functionEpilogue (a r l : Nat) : Option (List EvmOp × List Int) :=
  shuffleLoop (a + r + l + 2) (initialLayout a r l)

/-- Number of mispositioned layout entries (the loop's variant). -/
def D (il : List Int) : Nat :=
  ∑ i in Finset.range il.length, if il.getD i 0 = (i : Int) then 0 else 1

/-- Invariant of the layout vector: entries are `-1` or in `[0, r]`; each
of `0..r` occurs exactly once; a nonnegative entry at position `i` is at
most `i`, except that the entry `r` may sit at position 0. -/
def Inv (r : Nat) (il : List Int) : Prop :=
  (∀ x ∈ il, x = -1 ∨ (0 ≤ x ∧ x ≤ (r : Int))) ∧
  (∀ k : Nat, k ≤ r → il.count (k : Int) = 1) ∧
  (∀ i, i < il.length → 0 ≤ il.getD i 0 →
    (il.getD i 0 ≤ (i : Int) ∨ (il.getD i 0 = (r : Int) ∧ i = 0)))

/-- Correspondence between the layout vector and the runtime stack: a
slot whose layout entry is `k ≥ 0` holds the value destined for final
position `k`. -/
def StInv (r : Nat) (il : List Int) (st : List Val) : Prop :=
  st.length = il.length ∧
  ∀ i, i < il.length → 0 ≤ il.getD i 0 →
    st.getD i .retAddr = finalVal r (il.getD i 0).toNat

lemma length_swapTop (j : Nat) (l : List α) : (swapTop j l).length = l.length := by
  unfold swapTop
  cases h1 : l[j]? <;> cases h2 : l.getLast? <;> simp

lemma swapTop_eq {α : Type} (j : Nat) (l : List α) (hj : j < l.length) (h0 : l ≠ []) :
    swapTop j l =
      (l.set j (l.getLast h0)).set (l.length - 1) (l.get ⟨j, hj⟩) := by
  unfold swapTop
  rw [List.getElem?_eq_getElem hj, List.getLast?_eq_getLast l h0]
  rfl

lemma getLast?_eq_getD {α : Type} (l : List α) (d : α) (h0 : l ≠ []) :
    l.getLast? = some (l.getD (l.length - 1) d) := by
  have hlt : l.length - 1 < l.length := by
    have := List.length_pos.mpr h0
    omega
  rw [List.getLast?_eq_getElem?, List.getElem?_eq_getElem hlt,
    List.getD_eq_getElem l d hlt]

lemma getLast_eq_getD {α : Type} (l : List α) (d : α) (h0 : l ≠ []) :
    l.getLast h0 = l.getD (l.length - 1) d := by
  have h := getLast?_eq_getD l d h0
  rw [List.getLast?_eq_getLast l h0] at h
  exact Option.some.inj h

lemma getD_swapTop_self {α : Type} (l : List α) (d : α) (j : Nat) (hj : j < l.length) :
    (swapTop j l).getD j d = l.getD (l.length - 1) d := by
  have h0 : l ≠ [] := List.ne_nil_of_length_pos (by omega)
  rw [swapTop_eq j l hj h0]
  by_cases hje : j = l.length - 1
  · subst hje
    rw [List.getD_eq_getElem _ d (by simp; omega), List.getElem_set_self]
    rw [List.getD_eq_getElem l d hj]
    rfl
  · rw [List.getD_eq_getElem?_getD, List.getElem?_set_ne (fun h => hje h.symm),
      List.getElem?_set_self (by omega), ← getLast_eq_getD l d h0]
    rfl

lemma getD_swapTop_last {α : Type} (l : List α) (d : α) (j : Nat) (hj : j < l.length) :
    (swapTop j l).getD (l.length - 1) d = l.getD j d := by
  have h0 : l ≠ [] := List.ne_nil_of_length_pos (by omega)
  rw [swapTop_eq j l hj h0]
  rw [List.getD_eq_getElem _ d (by simp [List.length_set]; omega),
    List.getElem_set_self, List.getD_eq_getElem l d hj]
  rfl

lemma getD_swapTop_other {α : Type} (l : List α) (d : α) (j i : Nat) (hj : j < l.length)
    (hij : i ≠ j) (hil : i ≠ l.length - 1) :
    (swapTop j l).getD i d = l.getD i d := by
  have h0 : l ≠ [] := List.ne_nil_of_length_pos (by omega)
  rw [swapTop_eq j l hj h0]
  rw [List.getD_eq_getElem?_getD, List.getElem?_set_ne (fun h => hil h.symm),
    List.getElem?_set_ne (fun h => hij h.symm), ← List.getD_eq_getElem?_getD]

lemma count_eq_sum (l : List Int) (v : Int) :
    l.count v = ∑ i in Finset.range l.length, if l.getD i 0 = v then 1 else 0 := by
  induction l with
  | nil => simp
  | cons a t ih =>
      simp only [List.length_cons]
      rw [Finset.sum_range_succ']
      simp only [List.getD_cons_succ, List.getD_cons_zero]
      rw [← ih, List.count_cons]
      by_cases h : a = v
      · subst h
        simp
      · have h1 : (v == a) = false := by
          simp only [beq_eq_false_iff_ne, ne_eq]
          exact fun he => h he.symm
        simp [h, h1]

lemma sum_split2 (s : Finset ℕ) (j k : ℕ) (f : ℕ → ℕ)
    (hj : j ∈ s) (hk : k ∈ s) (hjk : j ≠ k) :
    ∑ i in s, f i = f j + f k + ∑ i in (s.erase j).erase k, f i := by
  rw [← Finset.add_sum_erase s f hj,
    ← Finset.add_sum_erase (s.erase j) f (Finset.mem_erase.mpr ⟨fun h => hjk h.symm, hk⟩)]
  omega

lemma two_le_count (l : List Int) (i j : Nat) (hi : i < l.length) (hj : j < l.length)
    (hij : i ≠ j) (v : Int) (h1 : l.getD i 0 = v) (h2 : l.getD j 0 = v) :
    2 ≤ l.count v := by
  rw [count_eq_sum]
  rw [sum_split2 (Finset.range l.length) i j _ (Finset.mem_range.mpr hi)
    (Finset.mem_range.mpr hj) hij]
  have hvv : (if v = v then (1 : ℕ) else 0) = 1 := if_pos rfl
  rw [h1, h2, hvv]
  omega

lemma count_swapTop (l : List Int) (j : Nat) (hj : j < l.length) (v : Int) :
    (swapTop j l).count v = l.count v := by
  have hlen := length_swapTop j l (α := Int)
  by_cases hje : j = l.length - 1
  · rw [count_eq_sum, count_eq_sum, hlen]
    apply Finset.sum_congr rfl
    intro i hi
    have hi' : i < l.length := Finset.mem_range.mp hi
    by_cases hij : i = j
    · have hgoal : (swapTop j l).getD i 0 = l.getD i 0 := by
        rw [hij, getD_swapTop_self l 0 j hj, ← hje]
      rw [hgoal]
    · rw [getD_swapTop_other l 0 j i hj hij (by omega)]
  · have hlast : l.length - 1 < l.length := by omega
    rw [count_eq_sum, count_eq_sum, hlen]
    rw [sum_split2 (Finset.range l.length) j (l.length - 1) _
      (Finset.mem_range.mpr hj) (Finset.mem_range.mpr hlast) hje]
    rw [sum_split2 (Finset.range l.length) j (l.length - 1) _
      (Finset.mem_range.mpr hj) (Finset.mem_range.mpr hlast) hje]
    rw [getD_swapTop_self l 0 j hj, getD_swapTop_last l 0 j hj]
    have hrest : ∑ i in ((Finset.range l.length).erase j).erase (l.length - 1),
        (if (swapTop j l).getD i 0 = v then 1 else 0) =
      ∑ i in ((Finset.range l.length).erase j).erase (l.length - 1),
        (if l.getD i 0 = v then 1 else 0) := by
      apply Finset.sum_congr rfl
      intro i hi
      rw [Finset.mem_erase, Finset.mem_erase] at hi
      rw [getD_swapTop_other l 0 j i hj hi.2.1 hi.1]
    rw [hrest]
    omega

lemma D_le_length (il : List Int) : D il ≤ il.length := by
  unfold D
  calc (∑ i in Finset.range il.length, if il.getD i 0 = (i : Int) then 0 else 1)
      ≤ ∑ _i in Finset.range il.length, 1 := by
        apply Finset.sum_le_sum
        intro i _
        split <;> omega
    _ = il.length := by simp

lemma D_append_singleton (l : List Int) (x : Int) :
    D (l ++ [x]) = D l + (if x = (l.length : Int) then 0 else 1) := by
  unfold D
  simp only [List.length_append, List.length_cons, List.length_nil]
  rw [Finset.sum_range_succ]
  have hterm : (l ++ [x]).getD l.length 0 = x := by
    rw [List.getD_eq_getElem?_getD, List.getElem?_append_right le_rfl]
    simp
  rw [hterm]
  have hpre : ∑ i in Finset.range l.length,
      (if (l ++ [x]).getD i 0 = (i : Int) then 0 else 1) =
    ∑ i in Finset.range l.length, (if l.getD i 0 = (i : Int) then 0 else 1) := by
    apply Finset.sum_congr rfl
    intro i hi
    have hi' : i < l.length := Finset.mem_range.mp hi
    rw [List.getD_eq_getElem?_getD, List.getElem?_append, if_pos hi',
      ← List.getD_eq_getElem?_getD]
  rw [hpre]

lemma D_swapTop_lt (l : List Int) (j : Nat) (hjlt : j < l.length - 1)
    (hback : l.getD (l.length - 1) 0 = (j : Int))
    (hpos : l.getD j 0 ≠ (j : Int)) :
    D (swapTop j l) < D l := by
  have hj : j < l.length := by omega
  have hlast : l.length - 1 < l.length := by omega
  have hje : j ≠ l.length - 1 := by omega
  unfold D
  rw [length_swapTop]
  rw [sum_split2 (Finset.range l.length) j (l.length - 1) _
    (Finset.mem_range.mpr hj) (Finset.mem_range.mpr hlast) hje]
  rw [sum_split2 (Finset.range l.length) j (l.length - 1) _
    (Finset.mem_range.mpr hj) (Finset.mem_range.mpr hlast) hje]
  rw [getD_swapTop_self l 0 j hj, getD_swapTop_last l 0 j hj]
  have hrest : ∑ i in ((Finset.range l.length).erase j).erase (l.length - 1),
      (if (swapTop j l).getD i 0 = (i : Int) then 0 else 1) =
    ∑ i in ((Finset.range l.length).erase j).erase (l.length - 1),
      (if l.getD i 0 = (i : Int) then 0 else 1) := by
    apply Finset.sum_congr rfl
    intro i hi
    rw [Finset.mem_erase, Finset.mem_erase] at hi
    rw [getD_swapTop_other l 0 j i hj hi.2.1 hi.1]
  rw [hrest]
  have h1 : (if l.getD (l.length - 1) 0 = (j : Int) then 0 else 1) = 0 := by
    rw [if_pos hback]
  have h2 : (if l.getD j 0 = (j : Int) then 0 else 1) = 1 := by
    rw [if_neg hpos]
  have h3 : (if l.getD (l.length - 1) 0 = ((l.length - 1 : Nat) : Int) then 0 else 1) = 1 := by
    rw [hback]
    have hne : (j : Int) ≠ ((l.length - 1 : Nat) : Int) := by
      intro h
      have := Int.ofNat.inj h
      omega
    rw [if_neg hne]
  have h4 : (if l.getD j 0 = ((l.length - 1 : Nat) : Int) then 0 else 1) ≤ 1 := by
    split <;> omega
  omega

lemma getD_mem (l : List Int) (i : Nat) (hi : i < l.length) : l.getD i 0 ∈ l := by
  rw [List.getD_eq_getElem l 0 hi]
  exact List.getElem_mem hi

lemma getD_dropLast {α : Type} (l : List α) (d : α) (i : Nat) (hi : i < l.length - 1) :
    l.dropLast.getD i d = l.getD i d := by
  have h1 : i < l.dropLast.length := by
    rw [List.length_dropLast]
    omega
  have h2 : i < l.length := by omega
  rw [List.getD_eq_getElem _ d h1, List.getD_eq_getElem _ d h2]
  exact List.getElem_dropLast ..

lemma inv_length (r : Nat) (il : List Int) (hInv : Inv r il) : r + 1 ≤ il.length := by
  obtain ⟨_, h2, _⟩ := hInv
  have hnd : ((List.range (r + 1)).map Int.ofNat).Nodup := by
    apply List.Nodup.map
    · intro a b hab
      exact Int.ofNat.inj hab
    · exact List.nodup_range _
  have hsub : ((List.range (r + 1)).map Int.ofNat) ⊆ il := by
    intro x hx
    rcases List.mem_map.mp hx with ⟨k, hk, rfl⟩
    have hk2 : k ≤ r := by
      have := List.mem_range.mp hk
      omega
    have hc := h2 k hk2
    have hpos : 0 < il.count (k : Int) := by omega
    exact List.count_pos_iff.mp hpos
  have hle := (List.subperm_of_subset hnd hsub).length_le
  simpa using hle

lemma inv_dropLast (r : Nat) (il : List Int) (hInv : Inv r il) (h0 : il ≠ [])
    (hneg : il.getD (il.length - 1) 0 < 0) : Inv r il.dropLast := by
  obtain ⟨h1, h2, h3⟩ := hInv
  have hpos : 0 < il.length := List.length_pos.mpr h0
  have hlen : il.dropLast.length = il.length - 1 := List.length_dropLast il
  refine ⟨?_, ?_, ?_⟩
  · intro x hx
    exact h1 x ((List.dropLast_sublist il).subset hx)
  · intro k hk
    have hsplit : il = il.dropLast ++ [il.getLast h0] :=
      (List.dropLast_append_getLast h0).symm
    have hcnt : il.count (k : Int) =
        il.dropLast.count (k : Int) + [il.getLast h0].count (k : Int) := by
      conv_lhs => rw [hsplit]
      rw [List.count_append]
    have hlast : il.getLast h0 = il.getD (il.length - 1) 0 := getLast_eq_getD il 0 h0
    have hne : (il.getLast h0 == (k : Int)) = false := by
      rw [beq_eq_false_iff_ne, hlast]
      intro he
      omega
    have hone : [il.getLast h0].count (k : Int) = 0 := by
      rw [List.count_singleton, hne]
      rfl
    rw [h2 k hk] at hcnt
    omega
  · intro i hi hge
    rw [hlen] at hi
    rw [getD_dropLast il 0 i hi] at hge ⊢
    exact h3 i (by omega) hge

lemma stInv_dropLast (r : Nat) (il : List Int) (st : List Val)
    (hst : StInv r il st) : StInv r il.dropLast st.dropLast := by
  obtain ⟨hl, hcorr⟩ := hst
  refine ⟨by simp [List.length_dropLast, hl], ?_⟩
  intro i hi hge
  rw [List.length_dropLast] at hi
  rw [getD_dropLast il 0 i hi] at hge ⊢
  rw [getD_dropLast st .retAddr i (by omega)]
  exact hcorr i (by omega) hge

lemma inv_swapTop (r : Nat) (il : List Int) (hInv : Inv r il) (j : Nat)
    (hjlt : j < il.length - 1) (hback : il.getD (il.length - 1) 0 = (j : Int)) :
    Inv r (swapTop j il) := by
  have hrlen : r + 1 ≤ il.length := inv_length r il hInv
  obtain ⟨h1, h2, h3⟩ := hInv
  have hj : j < il.length := by omega
  have hlen := length_swapTop j il (α := Int)
  refine ⟨?_, ?_, ?_⟩
  · intro x hx
    have hpos : 0 < (swapTop j il).count x := List.count_pos_iff.mpr hx
    rw [count_swapTop il j hj] at hpos
    exact h1 x (List.count_pos_iff.mp hpos)
  · intro k hk
    rw [count_swapTop il j hj]
    exact h2 k hk
  · intro i hi hge
    rw [hlen] at hi
    by_cases hij : i = j
    · rw [hij, getD_swapTop_self il 0 j hj, hback]
      left
      exact le_refl _
    · by_cases hil : i = il.length - 1
      · rw [hil, getD_swapTop_last il 0 j hj] at hge ⊢
        rcases h3 j hj hge with hle | ⟨hvr, _⟩
        · left
          have hcast : (j : Int) < ((il.length - 1 : Nat) : Int) := by
            exact_mod_cast hjlt
          omega
        · left
          rw [hvr]
          exact_mod_cast (by omega : r ≤ il.length - 1)
      · rw [getD_swapTop_other il 0 j i hj hij hil] at hge ⊢
        exact h3 i (by omega) hge

lemma stInv_swapTop (r : Nat) (il : List Int) (st : List Val)
    (hst : StInv r il st) (j : Nat)
    (hjlt : j < il.length - 1) (hback : il.getD (il.length - 1) 0 = (j : Int)) :
    StInv r (swapTop j il) (swapTop j st) := by
  obtain ⟨hl, hcorr⟩ := hst
  have hj : j < il.length := by omega
  have hjst : j < st.length := by omega
  refine ⟨by rw [length_swapTop, length_swapTop, hl], ?_⟩
  intro i hi hge
  rw [length_swapTop] at hi
  by_cases hij : i = j
  · rw [hij, getD_swapTop_self il 0 j hj, hback] at hge ⊢
    rw [getD_swapTop_self st .retAddr j hjst, hl]
    have hc := hcorr (il.length - 1) (by omega)
      (by rw [hback]; exact Int.natCast_nonneg j)
    rw [hback] at hc
    exact hc
  · by_cases hil : i = il.length - 1
    · rw [hil, getD_swapTop_last il 0 j hj] at hge ⊢
      rw [show il.length - 1 = st.length - 1 by rw [hl],
        getD_swapTop_last st .retAddr j hjst]
      exact hcorr j (by omega) hge
    · rw [getD_swapTop_other il 0 j i hj hij hil] at hge ⊢
      rw [getD_swapTop_other st .retAddr j i hjst hij (by rw [hl]; exact hil)]
      exact hcorr i (by omega) hge

lemma exit_identity (r : Nat) (il : List Int) (hInv : Inv r il) (h0 : il ≠ [])
    (hexit : il.getD (il.length - 1) 0 = (il.length : Int) - 1) :
    il = idLayout r := by
  have hrlen : r + 1 ≤ il.length := inv_length r il hInv
  obtain ⟨h1, h2, h3⟩ := hInv
  have hpos : 0 < il.length := List.length_pos.mpr h0
  have hlenle : il.length ≤ r + 1 := by
    have hmem : il.getD (il.length - 1) 0 ∈ il := getD_mem il _ (by omega)
    rcases h1 _ hmem with he | ⟨_, hle⟩
    · rw [hexit] at he
      omega
    · rw [hexit] at hle
      omega
  have hlen : il.length = r + 1 := by omega
  have hnn : ∀ i, i < il.length → 0 ≤ il.getD i 0 := by
    intro i hi
    have hmem : il.getD i 0 ∈ il := getD_mem il i hi
    rcases h1 _ hmem with he | ⟨hge, _⟩
    · exfalso
      have hsubS : ((List.range (r + 1)).map Int.ofNat) ⊆ il := by
        intro x hx
        rcases List.mem_map.mp hx with ⟨k, hk, rfl⟩
        have hk2 : k ≤ r := by
          have := List.mem_range.mp hk
          omega
        have hc := h2 k hk2
        have hpos : 0 < il.count ((k : Int)) := by omega
        exact List.count_pos_iff.mp hpos
      have hndS : ((List.range (r + 1)).map Int.ofNat).Nodup := by
        apply List.Nodup.map
        · intro a b hab
          exact Int.ofNat.inj hab
        · exact List.nodup_range _
      have hnot : (-1 : Int) ∉ (List.range (r + 1)).map Int.ofNat := by
        intro hmm
        rcases List.mem_map.mp hmm with ⟨k, _, hk⟩
        have hk2 : (k : Int) = -1 := hk
        omega
      have hnd2 : ((-1 : Int) :: (List.range (r + 1)).map Int.ofNat).Nodup :=
        List.nodup_cons.mpr ⟨hnot, hndS⟩
      have hsub2 : ((-1 : Int) :: (List.range (r + 1)).map Int.ofNat) ⊆ il := by
        intro x hx
        rcases List.mem_cons.mp hx with hx1 | hx2
        · rw [hx1, ← he]
          exact hmem
        · exact hsubS hx2
      have hle2 := (List.subperm_of_subset hnd2 hsub2).length_le
      simp at hle2
      omega
    · exact hge
  have hid : ∀ i, i < il.length → il.getD i 0 = (i : Int) := by
    intro i
    induction i using Nat.strong_induction_on with
    | _ i ih =>
      intro hi
      have hge := hnn i hi
      rcases h3 i hi hge with hle | ⟨hir, hi0⟩
      · set m := (il.getD i 0).toNat with hm
        have hmi : (m : Int) = il.getD i 0 := Int.toNat_of_nonneg hge
        have hmle : m ≤ i := by omega
        by_cases hmei : m = i
        · rw [← hmi, hmei]
        · have hmlt : m < i := by omega
          have h5 := ih m hmlt (by omega)
          have h2le := two_le_count il m i (by omega) hi (by omega) ((m : Nat) : Int)
            h5 hmi.symm
          have hc : il.count ((m : Nat) : Int) = 1 := h2 m (by omega)
          omega
      · rw [hi0] at hir ⊢
        by_cases hr0 : r = 0
        · rw [hir, hr0]
        · exfalso
          have hlast : il.getD (il.length - 1) 0 = ((r : Nat) : Int) := by
            rw [hexit, hlen]
            push_cast
            ring
          have h2le := two_le_count il 0 (il.length - 1) (by omega) (by omega)
            (by omega) ((r : Nat) : Int) hir hlast
          have hc : il.count ((r : Nat) : Int) = 1 := h2 r le_rfl
          omega
  apply List.ext_getElem
  · simp [idLayout, hlen]
  · intro i hi1 hi2
    have hh := hid i hi1
    rw [List.getD_eq_getElem il 0 hi1] at hh
    rw [hh]
    simp [idLayout]

lemma targetStack_length (r : Nat) : (targetStack r).length = r + 1 := by
  simp [targetStack]

lemma targetStack_getElem (r i : Nat) (hi : i < (targetStack r).length) :
    (targetStack r)[i] = finalVal r i := by
  have hi2 : i < r + 1 := by
    have := targetStack_length r
    omega
  unfold targetStack finalVal
  by_cases hir : i < r
  · rw [if_pos hir]
    have hl1 : i < ((List.range r).map Val.ret).length := by simp; omega
    rw [List.getElem_append_left hl1]
    simp
  · rw [if_neg hir]
    have hieq : i = r := by omega
    have hl1 : ((List.range r).map Val.ret).length ≤ i := by simp; omega
    rw [List.getElem_append_right hl1]
    simp [hieq]

lemma stInv_target (r : Nat) (st : List Val) (hst : StInv r (idLayout r) st) :
    st = targetStack r := by
  obtain ⟨hl, hcorr⟩ := hst
  have hlen : (idLayout r).length = r + 1 := by simp [idLayout]
  have hstlen : st.length = r + 1 := by rw [hl, hlen]
  apply List.ext_getElem (by rw [hstlen, targetStack_length])
  intro i hi1 hi2
  have hi : i < r + 1 := by omega
  have hgd : (idLayout r).getD i 0 = (i : Int) := by
    rw [List.getD_eq_getElem _ 0 (by omega)]
    simp [idLayout]
  have hc := hcorr i (by omega) (by rw [hgd]; exact Int.natCast_nonneg i)
  rw [hgd] at hc
  rw [List.getD_eq_getElem st .retAddr (by omega)] at hc
  rw [hc]
  simp only [Int.toNat_natCast]
  exact (targetStack_getElem r i hi2).symm

lemma shuffleLoop_correct (r : Nat) (fuel : Nat) :
    ∀ il, Inv r il → D il < fuel →
      ∃ ops, shuffleLoop fuel il = some (ops, idLayout r) ∧
        ∀ st, StInv r il st → runOps ops st = targetStack r := by
  induction fuel with
  | zero =>
      intro il _ hD
      exact absurd hD (Nat.not_lt_zero _)
  | succ fuel ih =>
      intro il hInv hD
      have hrlen : r + 1 ≤ il.length := inv_length r il hInv
      have h0 : il ≠ [] := by
        intro he
        rw [he] at hrlen
        simp at hrlen
      have hlast : il.getLast? = some (il.getD (il.length - 1) 0) :=
        getLast?_eq_getD il 0 h0
      by_cases hexit : il.getD (il.length - 1) 0 = (il.length : Int) - 1
      · have hid := exit_identity r il hInv h0 hexit
        refine ⟨[], ?_, ?_⟩
        · simp only [shuffleLoop, hlast]
          rw [if_pos hexit, hid]
        · intro st hst
          rw [hid] at hst
          simpa [runOps] using stInv_target r st hst
      · by_cases hneg : il.getD (il.length - 1) 0 < 0
        · have hInv2 := inv_dropLast r il hInv h0 hneg
          have hsplit : il = il.dropLast ++ [il.getLast h0] :=
            (List.dropLast_append_getLast h0).symm
          have hD2 : D il.dropLast < fuel := by
            have hDeq : D il = D il.dropLast + 1 := by
              conv_lhs => rw [hsplit]
              rw [D_append_singleton, getLast_eq_getD il 0 h0]
              have hlen2 : il.dropLast.length = il.length - 1 := List.length_dropLast il
              have hne2 : ¬ il.getD (il.length - 1) 0 = (il.dropLast.length : Int) := by
                rw [hlen2]
                intro he
                have hnn : (0 : Int) ≤ ((il.length - 1 : Nat) : Int) := Int.natCast_nonneg _
                omega
              rw [if_neg hne2]
            omega
          obtain ⟨ops, hrun, hstf⟩ := ih il.dropLast hInv2 hD2
          refine ⟨.pop :: ops, ?_, ?_⟩
          · simp only [shuffleLoop, hlast]
            rw [if_neg hexit, if_pos hneg, hrun]
          · intro st hst
            simp only [runOps]
            exact hstf st.dropLast (stInv_dropLast r il st hst)
        · have hbge : 0 ≤ il.getD (il.length - 1) 0 := le_of_not_lt hneg
          obtain ⟨h1, h2, h3⟩ := hInv
          have hbmem : il.getD (il.length - 1) 0 ∈ il := getD_mem il _ (by omega)
          have hback3 := h3 (il.length - 1) (by omega) hbge
          have hble : il.getD (il.length - 1) 0 ≤ ((il.length - 1 : Nat) : Int) := by
            rcases hback3 with h | ⟨hbr, hl0⟩
            · exact h
            · exfalso
              have hl1 : il.length = 1 := by omega
              have hr0 : r = 0 := by omega
              apply hexit
              rw [hbr, hr0, hl1]
              norm_num
          set j := (il.getD (il.length - 1) 0).toNat with hj
          have hjcast : (j : Int) = il.getD (il.length - 1) 0 := Int.toNat_of_nonneg hbge
          have hjlt : j < il.length - 1 := by
            have h1j : (j : Int) ≤ ((il.length - 1 : Nat) : Int) := by
              rw [hjcast]
              exact hble
            have h2j : j ≤ il.length - 1 := by exact_mod_cast h1j
            have hnej : j ≠ il.length - 1 := by
              intro he
              apply hexit
              rw [← hjcast, he]
              push_cast [Nat.cast_sub (by omega : 1 ≤ il.length)]
              ring
            omega
          have hback : il.getD (il.length - 1) 0 = (j : Int) := hjcast.symm
          have hInv3 : Inv r (swapTop j il) :=
            inv_swapTop r il ⟨h1, h2, h3⟩ j hjlt hback
          have hjne : il.getD j 0 ≠ (j : Int) := by
            intro he
            have hjr : j ≤ r := by
              rcases h1 _ hbmem with hm1 | ⟨_, hm2⟩
              · omega
              · have hcst : (j : Int) ≤ (r : Int) := by
                  rw [hjcast]
                  exact hm2
                exact_mod_cast hcst
            have h2le := two_le_count il j (il.length - 1) (by omega) (by omega)
              (by omega) ((j : Nat) : Int) he hback
            have hc : il.count ((j : Nat) : Int) = 1 := h2 j hjr
            omega
          have hD3 : D (swapTop j il) < fuel := by
            have := D_swapTop_lt il j hjlt hback hjne
            omega
          obtain ⟨ops, hrun, hstf⟩ := ih (swapTop j il) hInv3 hD3
          refine ⟨.swap (il.length - 1 - j) :: ops, ?_, ?_⟩
          · simp only [shuffleLoop, hlast]
            rw [if_neg hexit, if_neg hneg, ← hj, hrun]
          · intro st hst
            have hstlen : st.length = il.length := hst.1
            simp only [runOps]
            have harith : st.length - 1 - (il.length - 1 - j) = j := by omega
            rw [harith]
            exact hstf (swapTop j st) (stInv_swapTop r il st hst j hjlt hback)

lemma length_initialLayout (a r l : Nat) :
    (initialLayout a r l).length = a + r + l + 1 := by
  simp [initialLayout]
  omega

lemma length_entryStack (a r l : Nat) :
    (entryStack a r l).length = a + r + l + 1 := by
  simp [entryStack]
  omega

lemma initialLayout_getD_zero (a r l : Nat) :
    (initialLayout a r l).getD 0 0 = (r : Int) := by
  simp [initialLayout]

lemma initialLayout_getD_args (a r l i : Nat) (hlo : 1 ≤ i) (hhi : i ≤ a) :
    (initialLayout a r l).getD i 0 = -1 := by
  obtain ⟨m, rfl⟩ : ∃ m, i = m + 1 := ⟨i - 1, by omega⟩
  simp only [initialLayout, List.getD_cons_succ]
  rw [List.getD_eq_getElem?_getD, List.getElem?_append,
    if_pos (by simp; omega), List.getElem?_append, if_pos (by simp; omega),
    List.getElem?_replicate, if_pos (by omega)]
  rfl

lemma initialLayout_getD_rets (a r l i : Nat) (hlo : a + 1 ≤ i) (hhi : i < a + 1 + r) :
    (initialLayout a r l).getD i 0 = ((i - (a + 1) : Nat) : Int) := by
  obtain ⟨m, rfl⟩ : ∃ m, i = m + 1 := ⟨i - 1, by omega⟩
  simp only [initialLayout, List.getD_cons_succ]
  rw [List.getD_eq_getElem?_getD, List.getElem?_append,
    if_pos (by simp; omega), List.getElem?_append, if_neg (by simp; omega)]
  have hidx : m - (List.replicate a (-1 : Int)).length <
      ((List.range r).map Int.ofNat).length := by
    simp
    omega
  rw [List.getElem?_eq_getElem hidx]
  simp only [Option.getD_some, List.getElem_map, List.getElem_range,
    List.length_replicate]
  rw [show m - a = m + 1 - (a + 1) from by omega]
  rfl

lemma initialLayout_getD_locals (a r l i : Nat) (hlo : a + 1 + r ≤ i)
    (hhi : i < a + 1 + r + l) :
    (initialLayout a r l).getD i 0 = -1 := by
  obtain ⟨m, rfl⟩ : ∃ m, i = m + 1 := ⟨i - 1, by omega⟩
  simp only [initialLayout, List.getD_cons_succ]
  rw [List.getD_eq_getElem?_getD, List.getElem?_append,
    if_neg (by simp; omega), List.getElem?_replicate, if_pos (by simp; omega)]
  rfl

lemma entryStack_getD_zero (a r l : Nat) :
    (entryStack a r l).getD 0 .retAddr = .retAddr := by
  simp [entryStack]

lemma entryStack_getD_rets (a r l i : Nat) (hlo : a + 1 ≤ i) (hhi : i < a + 1 + r) :
    (entryStack a r l).getD i .retAddr = .ret (i - (a + 1)) := by
  obtain ⟨m, rfl⟩ : ∃ m, i = m + 1 := ⟨i - 1, by omega⟩
  simp only [entryStack, List.getD_cons_succ]
  rw [List.getD_eq_getElem?_getD, List.getElem?_append,
    if_pos (by simp; omega), List.getElem?_append, if_neg (by simp; omega)]
  have hidx : m - ((List.range a).map Val.arg).length <
      ((List.range r).map Val.ret).length := by
    simp
    omega
  rw [List.getElem?_eq_getElem hidx]
  simp only [Option.getD_some, List.getElem_map, List.getElem_range, List.length_map,
    List.length_range]
  rw [show m - a = m + 1 - (a + 1) from by omega]

lemma inv_initial (a r l : Nat) : Inv r (initialLayout a r l) := by
  refine ⟨?_, ?_, ?_⟩
  · intro x hx
    simp only [initialLayout, List.mem_cons, List.mem_append, List.mem_replicate,
      List.mem_map, List.mem_range] at hx
    rcases hx with h | ((⟨_, h⟩ | ⟨k, hk, hkk⟩) | ⟨_, h⟩)
    · right
      rw [h]
      exact ⟨Int.natCast_nonneg r, le_refl _⟩
    · left
      exact h
    · right
      have hx2 : x = (k : Int) := hkk.symm
      rw [hx2]
      constructor
      · exact Int.natCast_nonneg k
      · exact_mod_cast (by omega : k ≤ r)
    · left
      exact h
  · intro k hk
    simp only [initialLayout, List.count_cons, List.count_append]
    rw [List.count_replicate, List.count_replicate]
    have hA : ((-1 : Int) == ((k : Nat) : Int)) = false := by
      rw [beq_eq_false_iff_ne]
      intro he
      omega
    rw [hA]
    have hB : ((List.range r).map Int.ofNat).count ((k : Nat) : Int) =
        if k < r then 1 else 0 := by
      by_cases hkr : k < r
      · rw [if_pos hkr]
        apply List.count_eq_one_of_mem
        · apply List.Nodup.map
          · intro x y hxy
            exact Int.ofNat.inj hxy
          · exact List.nodup_range _
        · exact List.mem_map.mpr ⟨k, List.mem_range.mpr hkr, rfl⟩
      · rw [if_neg hkr]
        apply List.count_eq_zero_of_not_mem
        intro hmm
        rcases List.mem_map.mp hmm with ⟨k2, hk2, heq⟩
        have heq2 : (k2 : Int) = (k : Int) := heq
        have hke : k2 = k := by exact_mod_cast heq2
        have : k2 < r := List.mem_range.mp hk2
        omega
    rw [hB]
    by_cases hkr : k = r
    · have hC : (((r : Nat) : Int) == ((k : Nat) : Int)) = true := by
        rw [beq_iff_eq, hkr]
      rw [hC, if_neg (show ¬ k < r by omega)]
      simp
    · have hC : (((r : Nat) : Int) == ((k : Nat) : Int)) = false := by
        rw [beq_eq_false_iff_ne]
        intro he
        have : r = k := by exact_mod_cast he
        omega
      rw [hC, if_pos (show k < r by omega)]
      simp
  · intro i hi hge
    rw [length_initialLayout] at hi
    by_cases hi0 : i = 0
    · refine Or.inr ⟨?_, hi0⟩
      rw [hi0, initialLayout_getD_zero]
    · by_cases hia : i ≤ a
      · exfalso
        rw [initialLayout_getD_args a r l i (by omega) hia] at hge
        omega
      · by_cases hir : i < a + 1 + r
        · left
          rw [initialLayout_getD_rets a r l i (by omega) hir]
          exact_mod_cast (by omega : i - (a + 1) ≤ i)
        · exfalso
          rw [initialLayout_getD_locals a r l i (by omega) (by omega)] at hge
          omega

lemma stInv_initial (a r l : Nat) :
    StInv r (initialLayout a r l) (entryStack a r l) := by
  refine ⟨by rw [length_entryStack, length_initialLayout], ?_⟩
  intro i hi hge
  rw [length_initialLayout] at hi
  by_cases hi0 : i = 0
  · rw [hi0, initialLayout_getD_zero, entryStack_getD_zero]
    simp [finalVal]
  · by_cases hia : i ≤ a
    · exfalso
      rw [initialLayout_getD_args a r l i (by omega) hia] at hge
      omega
    · by_cases hir : i < a + 1 + r
      · rw [initialLayout_getD_rets a r l i (by omega) hir,
          entryStack_getD_rets a r l i (by omega) hir]
        simp only [Int.toNat_natCast, finalVal]
        rw [if_pos (by omega)]
      · exfalso
        rw [initialLayout_getD_locals a r l i (by omega) (by omega)] at hge
        omega

/-- C5: for every combination of total argument, local-variable and
return-value stack sizes, the emitted epilogue re-shuffle, run on the
stack `[return_addr][args][rets][locals]` present at the return tag,
terminates in the identity layout and leaves exactly the return values in
declaration order below the return address, with the return address on
top; all argument and local-variable slots are discarded. -/
theorem functionEpilogue_correct (a r l : Nat) :
    ∃ ops, functionEpilogue a r l = some (ops, idLayout r) ∧
      runOps ops (entryStack a r l) = targetStack r := by
  have hD : D (initialLayout a r l) < a + r + l + 2 := by
    have hle := D_le_length (initialLayout a r l)
    rw [length_initialLayout] at hle
    omega
  obtain ⟨ops, h1, h2⟩ := shuffleLoop_correct r (a + r + l + 2) (initialLayout a r l)
    (inv_initial a r l) hD
  exact ⟨ops, h1, h2 _ (stInv_initial a r l)⟩

/-- C10: the epilogue re-shuffle loop terminates: starting from the layout
vector `[returns_size] ++ [-1]*args ++ [0..returns_size-1] ++ [-1]*locals`,
popping trailing `-1` entries and swapping the last element into its
target position reaches, in finitely many steps (within fuel
`args+rets+locals+2`), a state where the last element's target equals its
own index. -/
theorem epilogueShuffle_terminates (a r l : Nat) :
    ∃ ops il2, shuffleLoop (a + r + l + 2) (initialLayout a r l) = some (ops, il2) ∧
      il2.getD (il2.length - 1) 0 = (il2.length : Int) - 1 := by
  have hD : D (initialLayout a r l) < a + r + l + 2 := by
    have hle := D_le_length (initialLayout a r l)
    rw [length_initialLayout] at hle
    omega
  obtain ⟨ops, h1, _⟩ := shuffleLoop_correct r (a + r + l + 2) (initialLayout a r l)
    (inv_initial a r l) hD
  refine ⟨ops, idLayout r, h1, ?_⟩
  have hlen : (idLayout r).length = r + 1 := by simp [idLayout]
  rw [hlen]
  rw [List.getD_eq_getElem _ 0 (by rw [hlen]; omega)]
  simp [idLayout]

end SolC
